import Mathlib

/-!
Verification of the QuickRows CSV access engine (`src-tauri/src`).

Shallow-embedding conventions used throughout this file:

* A parsed CSV file is modelled as the list of its physical data records
  (the header row, when present, is consumed upstream and is not part of the
  list), each record being the list of its decoded fields.  Text decoding is
  modelled as the identity (inputs are valid UTF-8), so a field's raw byte
  length equals its UTF-8 byte size.
* A byte offset stored in the row-offset array is modelled by the physical
  index of the record that starts at that byte: record starts are strictly
  increasing, so byte offsets and physical indices are in order-preserving
  bijection.  Seeking a reader to `offsets[i]` and then reading yields the
  physical records from that index on, consecutively — exactly as in the
  source, where a seek is followed by plain `read_byte_record` calls.
* The `csv` crate itself is modelled as the record source; crate-level
  errors (I/O failures, strict-mode length checks inside the crate) are not
  modelled.  Warning payloads are modelled only where a claim is about them.
* The 64-bit `DefaultHasher` used by the duplicate finder is an abstract
  parameter `hashFn`; hashing a record writes the hashed fields into the
  hasher, so two field lists produce the same hash iff `hashFn` agrees on
  them.
* Rust's unstable sorts are modelled by a deterministic insertion sort; on
  the concrete inputs used below (length-two already-sorted slices) the
  library sort performs no swaps, matching the model.
-/

namespace QuickRows

deriving instance DecidableEq for Except

/-- Malformed-row policy, from `csv_handler.rs` (`MalformedMode`). -/
inductive MalformedMode where
  | strict
  | skip
  | repair
deriving DecidableEq, Repr

/-- `MalformedMode::from_str`: unknown strings fall back to strict. -/
def MalformedMode.from_str (value : String) : MalformedMode :=
  if value = "skip" then .skip
  else if value = "repair" then .repair
  else .strict

/-- Record terminator, modelling `csv::Terminator`. -/
inductive Terminator where
  | crlf
  | any (b : Char)
deriving DecidableEq, Repr

/-- Effective parse settings, from `csv_handler.rs` (`ParseSettings`).
The `encoding` handle is represented by its label only (decoding is modelled
as the identity). -/
structure ParseSettings where
  delimiter : Char
  quote : Char
  escape : Option Char
  terminator : Terminator
  line_ending : String
  has_headers : Bool
  encoding_label : String
  malformed : MalformedMode
  max_field_size : Nat
  max_record_size : Nat
deriving DecidableEq, Repr

/-- `default_parse_settings` from `csv_handler.rs`. -/
def default_parse_settings : ParseSettings where
  delimiter := ','
  quote := '"'
  escape := none
  terminator := .crlf
  line_ending := "auto"
  has_headers := true
  encoding_label := "utf-8"
  malformed := .skip
  max_field_size := 256 * 1024
  max_record_size := 2 * 1024 * 1024

/-! ### String utilities from the source

Lean's built-in `String.trim`, `String.toLower` and `String.utf8ByteSize`
do not reduce inside the kernel, so the models use character-list versions
with identical semantics (lowercasing is modelled on ASCII letters, which
is the case split relevant to every claim below). -/

/-- UTF-8 byte size of a string. -/
def utf8Len (s : String) : Nat := (s.data.map Char.utf8Size).sum

/-- Whitespace predicate used by `trim`. -/
def isWsChar (c : Char) : Bool :=
  c = ' ' ∨ c = '\t' ∨ c = '\n' ∨ c = '\r'

/-- `str::trim`. -/
def strTrim (s : String) : String :=
  String.mk (((s.data.dropWhile isWsChar).reverse.dropWhile isWsChar).reverse)

/-- ASCII lowercasing of one character. -/
def lowerChar (c : Char) : Char :=
  if 'A' ≤ c ∧ c ≤ 'Z' then Char.ofNat (c.toNat + 32) else c

/-- `str::to_lowercase`, modelled as per-character ASCII lowercasing. -/
def strToLower (s : String) : String :=
  String.mk (s.data.map lowerChar)

/-- Longest prefix of a character list whose total UTF-8 size fits the
byte budget. -/
def takeBytes : List Char → Nat → List Char
  | [], _ => []
  | c :: cs, budget =>
    if c.utf8Size ≤ budget then c :: takeBytes cs (budget - c.utf8Size) else []

/-- `truncate_to_bytes` from `csv_handler.rs`: if the value exceeds the
budget, keep the longest prefix ending at a character boundary at or before
`maxBytes` (the source walks `char_indices`, which computes exactly this
prefix). -/
def truncate_to_bytes (value : String) (maxBytes : Nat) : String :=
  if utf8Len value ≤ maxBytes then value
  else String.mk (takeBytes value.data maxBytes)

/-- `truncate_utf8` from `lib.rs`: walk back from `maxBytes` to the nearest
character boundary.  This computes the same longest bounded prefix as
`truncate_to_bytes`. -/
def truncate_utf8 (s : String) (maxBytes : Nat) : String :=
  if utf8Len s ≤ maxBytes then s
  else String.mk (takeBytes s.data maxBytes)

/-- `strip_bom` from `csv_handler.rs`: drop one leading U+FEFF character. -/
def strip_bom (value : String) : String :=
  match value.data with
  | c :: rest => if c = '﻿' then String.mk rest else value
  | [] => value

/-- `decode_record` from `csv_handler.rs`, with decoding modelled as the
identity; only the BOM-stripping of field 0 remains observable. -/
def decode_record (record : List String) (strip_first : Bool) : List String :=
  if strip_first then
    match record with
    | [] => []
    | f :: rest => strip_bom f :: rest
  else record

/-! ### Warning bound (`push_warning`, claim C8) -/

/-- Structured warning, from `csv_handler.rs` (`ParseWarning`). -/
structure ParseWarning where
  record : Option Nat
  line : Option Nat
  byte : Option Nat
  field : Option Nat
  kind : String
  message : String
  expected_len : Option Nat
  len : Option Nat
deriving DecidableEq, Repr

/-- Warning-list capacity (`MAX_WARNING_COUNT`). -/
def MAX_WARNING_COUNT : Nat := 200

/-- `push_warning` from `csv_handler.rs`: drop the warning if the list is
already full. -/
def push_warning (warnings : List ParseWarning) (warning : ParseWarning) :
    List ParseWarning :=
  if MAX_WARNING_COUNT ≤ warnings.length then warnings
  else warnings ++ [warning]

/-- The `warnings.extend(new); warnings.truncate(MAX_WARNING_COUNT)` pattern
used by `load_csv_metadata`, `get_csv_chunk`, `sort_csv` and
`get_sorted_chunk` in `lib.rs` (Rust `truncate` keeps the first 200
entries). -/
def extend_truncate_warnings (stored new : List ParseWarning) :
    List ParseWarning :=
  (stored ++ new).take MAX_WARNING_COUNT

/-! ### Disk cache (`disk_cache.rs`, claim C9) -/

/-- Cache key, from `disk_cache.rs` (`CacheKey`); all components are 64-bit
in the source and are modelled as `Nat` with explicit `< 2^64` bounds where
they matter. -/
structure CacheKey where
  hash : Nat
  len : Nat
  modified : Nat
deriving DecidableEq, Repr

/-- Little-endian encoding of a `u32` (the source writes
`value.to_le_bytes()`). -/
def u32le (n : Nat) : List Nat :=
  [n % 256, n / 256 % 256, n / 256 ^ 2 % 256, n / 256 ^ 3 % 256]

/-- Little-endian encoding of a `u64`. -/
def u64le (n : Nat) : List Nat :=
  [n % 256, n / 256 % 256, n / 256 ^ 2 % 256, n / 256 ^ 3 % 256,
   n / 256 ^ 4 % 256, n / 256 ^ 5 % 256, n / 256 ^ 6 % 256, n / 256 ^ 7 % 256]

/-- The magic bytes b"CVOF". -/
def OFFSETS_MAGIC : List Nat := [0x43, 0x56, 0x4F, 0x46]

/-- `CACHE_VERSION` from `disk_cache.rs`. -/
def CACHE_VERSION : Nat := 1

/-- `write_offsets_cache`, as the byte sequence the source writes to the
cache file. -/
def write_offsets_cache (key : CacheKey) (offsets : List Nat) : List Nat :=
  OFFSETS_MAGIC ++ u32le CACHE_VERSION ++ u64le key.len ++ u64le key.modified ++
    u64le offsets.length ++ (offsets.map u64le).flatten

/-- `read_exact` into a fixed-size buffer: returns the bytes and the rest,
or `none` when the input is too short. -/
def readExact (k : Nat) (bytes : List Nat) : Option (List Nat × List Nat) :=
  if k ≤ bytes.length then some (bytes.take k, bytes.drop k) else none

/-- Little-endian decoding of a byte list. -/
def decodeLE (bs : List Nat) : Nat :=
  bs.foldr (fun b acc => b + 256 * acc) 0

/-- `read_u32` from `disk_cache.rs`; a short read is an `Err` in the
source. -/
def read_u32 (bytes : List Nat) : Except Unit (Nat × List Nat) :=
  match readExact 4 bytes with
  | some (bs, rest) => .ok (decodeLE bs, rest)
  | none => .error ()

/-- `read_u64` from `disk_cache.rs`. -/
def read_u64 (bytes : List Nat) : Except Unit (Nat × List Nat) :=
  match readExact 8 bytes with
  | some (bs, rest) => .ok (decodeLE bs, rest)
  | none => .error ()

/-- The payload loop of `read_offsets_cache`: read `count` u64 values. -/
def readOffsetsPayload : Nat → List Nat → Except Unit (List Nat)
  | 0, _ => .ok []
  | k + 1, bytes =>
    match read_u64 bytes with
    | .error e => .error e
    | .ok (v, rest) =>
      match readOffsetsPayload k rest with
      | .error e => .error e
      | .ok vs => .ok (v :: vs)

/-- `read_offsets_cache` from `disk_cache.rs`.  `.ok none` is a cache miss;
`.error` models the `Err(String)` that a short read after the magic check
produces. -/
def read_offsets_cache (bytes : List Nat) (key : CacheKey) :
    Except Unit (Option (List Nat)) :=
  match readExact 4 bytes with
  | none => .ok none
  | some (magic, rest) =>
    if magic ≠ OFFSETS_MAGIC then .ok none
    else
      match read_u32 rest with
      | .error e => .error e
      | .ok (version, rest) =>
        if version ≠ CACHE_VERSION then .ok none
        else
          match read_u64 rest with
          | .error e => .error e
          | .ok (len, rest) =>
            match read_u64 rest with
            | .error e => .error e
            | .ok (modified, rest) =>
              if len ≠ key.len ∨ modified ≠ key.modified then .ok none
              else
                match read_u64 rest with
                | .error e => .error e
                | .ok (count, rest) =>
                  match readOffsetsPayload count rest with
                  | .error e => .error e
                  | .ok offsets => .ok (some offsets)

/-! ### Helper lemmas for C9 -/

theorem decodeLE_u64le (n : Nat) (h : n < 2 ^ 64) : decodeLE (u64le n) = n := by
  simp only [u64le, decodeLE, List.foldr]
  omega

theorem u64le_length (n : Nat) : (u64le n).length = 8 := by
  simp [u64le]

theorem readExact_exact {k : Nat} {pre rest : List Nat} (h : pre.length = k) :
    readExact k (pre ++ rest) = some (pre, rest) := by
  subst h
  simp [readExact, List.take_left, List.drop_left]

theorem read_u64_exact {n : Nat} {rest : List Nat} (h : n < 2 ^ 64) :
    read_u64 (u64le n ++ rest) = .ok (n, rest) := by
  rw [read_u64, readExact_exact (u64le_length n)]
  simp [decodeLE_u64le n h]

theorem readOffsetsPayload_exact (offsets : List Nat)
    (h : ∀ o ∈ offsets, o < 2 ^ 64) :
    readOffsetsPayload offsets.length ((offsets.map u64le).flatten) =
      .ok offsets := by
  induction offsets with
  | nil => simp [readOffsetsPayload]
  | cons o os ih =>
    have ho : o < 2 ^ 64 := h o (by simp)
    have hos : ∀ x ∈ os, x < 2 ^ 64 := fun x hx => h x (by simp [hx])
    simp only [List.length_cons, List.map_cons, List.flatten_cons,
      readOffsetsPayload, List.append_assoc]
    rw [read_u64_exact ho]
    simp [ih hos]

theorem decodeLE_u32le (n : Nat) (h : n < 2 ^ 32) : decodeLE (u32le n) = n := by
  simp only [u32le, decodeLE, List.foldr]
  omega

theorem u32le_length (n : Nat) : (u32le n).length = 4 := by
  simp [u32le]

theorem read_u32_exact {n : Nat} {rest : List Nat} (h : n < 2 ^ 32) :
    read_u32 (u32le n ++ rest) = .ok (n, rest) := by
  rw [read_u32, readExact_exact (u32le_length n)]
  simp [decodeLE_u32le n h]

theorem OFFSETS_MAGIC_length : OFFSETS_MAGIC.length = 4 := by
  simp [OFFSETS_MAGIC]

/-- C9: the offsets cache round-trips.  Writing an offset array under a key
and reading it back with a key carrying the same `(len, mtime)` yields
exactly the written array; reading with a key whose `len` or `mtime`
differs yields a miss (`.ok none`), as does any byte sequence whose first
four bytes are not the `CVOF` magic or whose version field is not 1. -/
theorem offsets_cache_round_trip
    (key : CacheKey) (offsets : List Nat)
    (hlen : key.len < 2 ^ 64) (hmod : key.modified < 2 ^ 64)
    (hcount : offsets.length < 2 ^ 64)
    (hoff : ∀ o ∈ offsets, o < 2 ^ 64) :
    read_offsets_cache (write_offsets_cache key offsets) key =
        .ok (some offsets) ∧
    (∀ key2 : CacheKey, key2.len ≠ key.len ∨ key2.modified ≠ key.modified →
      read_offsets_cache (write_offsets_cache key offsets) key2 = .ok none) ∧
    (∀ bytes : List Nat, bytes.take 4 ≠ OFFSETS_MAGIC →
      read_offsets_cache bytes key = .ok none) ∧
    (∀ (v : Nat) (rest : List Nat), v < 2 ^ 32 → v ≠ CACHE_VERSION →
      read_offsets_cache (OFFSETS_MAGIC ++ u32le v ++ rest) key = .ok none) := by
  have hver : (CACHE_VERSION : Nat) < 2 ^ 32 := by norm_num [CACHE_VERSION]
  have hparse : ∀ key2 : CacheKey,
      read_offsets_cache (write_offsets_cache key offsets) key2 =
        if key.len ≠ key2.len ∨ key.modified ≠ key2.modified then .ok none
        else .ok (some offsets) := by
    intro key2
    simp only [write_offsets_cache, read_offsets_cache, List.append_assoc,
      readExact_exact OFFSETS_MAGIC_length, read_u32_exact hver,
      read_u64_exact hlen, read_u64_exact hmod, read_u64_exact hcount,
      readOffsetsPayload_exact offsets hoff, ne_eq, eq_self_iff_true,
      not_true_eq_false, if_false]
  refine ⟨?_, ?_, ?_, ?_⟩
  · rw [hparse key]
    simp
  · intro key2 hne
    rw [hparse key2]
    have hmm : key.len ≠ key2.len ∨ key.modified ≠ key2.modified := by
      rcases hne with h | h
      · exact Or.inl (fun he => h he.symm)
      · exact Or.inr (fun he => h he.symm)
    rw [if_pos hmm]
  · intro bytes hmagic
    by_cases h4 : 4 ≤ bytes.length
    · simp only [read_offsets_cache, readExact, if_pos h4]
      rw [if_pos hmagic]
    · simp only [read_offsets_cache, readExact, if_neg h4]
  · intro v rest hv hne
    simp only [read_offsets_cache, List.append_assoc,
      readExact_exact OFFSETS_MAGIC_length, read_u32_exact hv, ne_eq,
      eq_self_iff_true, not_true_eq_false, if_false]
    rw [if_pos hne]

/-- Witness for C9, mirroring scenario S7: offsets `[0,12,16]` written under
`(len=18, mtime=1000)` read back under the same key, and missed under
`(len=19, mtime=1000)`. -/
theorem offsets_cache_round_trip_witness :
    read_offsets_cache (write_offsets_cache ⟨7, 18, 1000⟩ [0, 12, 16])
        ⟨7, 18, 1000⟩ = .ok (some [0, 12, 16]) ∧
    read_offsets_cache (write_offsets_cache ⟨7, 18, 1000⟩ [0, 12, 16])
        ⟨7, 19, 1000⟩ = .ok none := by
  have h := offsets_cache_round_trip ⟨7, 18, 1000⟩ [0, 12, 16]
    (by norm_num) (by norm_num) (by norm_num) (by decide)
  exact ⟨h.1, h.2.1 ⟨7, 19, 1000⟩ (Or.inl (by decide))⟩

/-- C8: the session warning list never exceeds 200 entries.  `push_warning`
preserves the bound and silently drops a warning pushed onto a full list;
the `extend`-then-`truncate` pattern used by the `lib.rs` operations also
preserves the bound. -/
theorem warning_list_bounded :
    (∀ (ws : List ParseWarning) (w : ParseWarning),
      ws.length ≤ MAX_WARNING_COUNT →
        (push_warning ws w).length ≤ MAX_WARNING_COUNT) ∧
    (∀ (ws : List ParseWarning) (w : ParseWarning),
      ws.length = MAX_WARNING_COUNT → push_warning ws w = ws) ∧
    (∀ stored new : List ParseWarning,
      (extend_truncate_warnings stored new).length ≤ MAX_WARNING_COUNT) := by
  refine ⟨?_, ?_, ?_⟩
  · intro ws w hle
    rw [push_warning]
    by_cases hfull : MAX_WARNING_COUNT ≤ ws.length
    · rw [if_pos hfull]
      exact hle
    · rw [if_neg hfull]
      simp only [List.length_append, List.length_cons, List.length_nil]
      omega
  · intro ws w heq
    rw [push_warning, if_pos (le_of_eq heq.symm)]
  · intro stored new
    rw [extend_truncate_warnings]
    simp [List.length_take]

/-- Witness for C8 at a concrete full list: pushing onto 200 warnings is a
no-op and keeps the bound. -/
theorem warning_list_bounded_witness :
    (push_warning
        (List.replicate 200 ⟨none, none, none, none, "parse", "m", none, none⟩)
        ⟨none, none, none, none, "utf8", "x", none, none⟩).length ≤
      MAX_WARNING_COUNT ∧
    push_warning
        (List.replicate 200 ⟨none, none, none, none, "parse", "m", none, none⟩)
        ⟨none, none, none, none, "utf8", "x", none, none⟩ =
      List.replicate 200 ⟨none, none, none, none, "parse", "m", none, none⟩ := by
  have hlen :
      (List.replicate 200
        (⟨none, none, none, none, "parse", "m", none, none⟩ :
          ParseWarning)).length = MAX_WARNING_COUNT := by
    rw [List.length_replicate, MAX_WARNING_COUNT]
  exact ⟨warning_list_bounded.1 _ _ (le_of_eq hlen),
    warning_list_bounded.2.1 _ _ hlen⟩

/-! ### Dialect overrides (`apply_parse_overrides`, claim C10) -/

/-- Detection result, from `csv_handler.rs` (`DetectedSettings`). -/
structure DetectedSettings where
  delimiter : Char
  quote : Char
  escape : Option Char
  line_ending : String
  encoding_label : String
  has_headers : Bool
deriving DecidableEq, Repr

/-- User overrides, from `csv_handler.rs` (`ParseOverrides`). -/
structure ParseOverrides where
  delimiter : Option String
  quote : Option String
  escape : Option String
  line_ending : Option String
  encoding : Option String
  has_headers : Option Bool
  malformed : Option String
  max_field_size : Option Nat
  max_record_size : Option Nat
deriving Repr

/-- `normalize_delimiter` from `csv_handler.rs`: symbolic aliases, then a
single-byte fallback (a one-byte string is a single ASCII character). -/
def normalize_delimiter (value : String) : Option Char :=
  let v := strToLower (strTrim value)
  if v = "comma" ∨ v = "," then some ','
  else if v = "tab" ∨ v = "\\t" ∨ v = "tsv" then some '\t'
  else if v = "semicolon" ∨ v = ";" then some ';'
  else if v = "pipe" ∨ v = "|" then some '|'
  else if v = "space" ∨ v = " " then some ' '
  else if utf8Len v = 1 then v.data.head?
  else none

/-- `normalize_quote` from `csv_handler.rs`. -/
def normalize_quote (value : String) : Option Char :=
  let v := strToLower (strTrim value)
  if v = "double" ∨ v = "\"" then some '"'
  else if v = "single" ∨ v = "'" then some '\''
  else if utf8Len v = 1 then v.data.head?
  else none

/-- `normalize_escape` from `csv_handler.rs`: the outer `Option` is
recognition, the inner one is the escape byte itself. -/
def normalize_escape (value : String) : Option (Option Char) :=
  let v := strToLower (strTrim value)
  if v = "none" ∨ v = "off" then some none
  else if v = "backslash" ∨ v = "\\\\" ∨ v = "\\" then some (some '\\')
  else if utf8Len v = 1 then v.data.head?.map some
  else none

/-- `normalize_line_ending` from `csv_handler.rs`. -/
def normalize_line_ending (value : String) : Option (Terminator × String) :=
  let v := strToLower (strTrim value)
  if v = "lf" ∨ v = "\\n" then some (.any '\n', "lf")
  else if v = "cr" ∨ v = "\\r" then some (.any '\r', "cr")
  else if v = "crlf" ∨ v = "\\r\\n" then some (.crlf, "crlf")
  else if v = "auto" then some (.crlf, "auto")
  else none

/-- The encoding-alias normalization inlined in `apply_parse_overrides`
(`latin1`/`latin-1` to `iso-8859-1`, `utf8` to `utf-8`). -/
def normalize_encoding_alias (value : String) : String :=
  let v := strToLower (strTrim value)
  if v = "latin1" then "iso-8859-1"
  else if v = "latin-1" then "iso-8859-1"
  else if v = "utf8" then "utf-8"
  else v

/-- `apply_parse_overrides` from `csv_handler.rs`.  `forLabel` abstracts the
external `Encoding::for_label` lookup, returning the canonical encoding
name when the label is recognized.  Every `if let Some(parsed) = ...`
assignment in the source becomes a `getD`-style fallback here; note that
when a `line_ending` override is present but unrecognized, the source keeps
the initial `Terminator::CRLF` instead of re-deriving the terminator from
the detected line ending. -/
def apply_parse_overrides (detected : DetectedSettings)
    (overrides : Option ParseOverrides)
    (forLabel : String → Option String) : ParseSettings :=
  match overrides with
  | none =>
    { delimiter := detected.delimiter
      quote := detected.quote
      escape := detected.escape
      terminator :=
        (normalize_line_ending detected.line_ending).elim Terminator.crlf (·.1)
      line_ending := detected.line_ending
      has_headers := detected.has_headers
      encoding_label := detected.encoding_label
      malformed := .skip
      max_field_size := 256 * 1024
      max_record_size := 2 * 1024 * 1024 }
  | some o =>
    { delimiter :=
        match o.delimiter with
        | some v => (normalize_delimiter v).getD detected.delimiter
        | none => detected.delimiter
      quote :=
        match o.quote with
        | some v => (normalize_quote v).getD detected.quote
        | none => detected.quote
      escape :=
        match o.escape with
        | some v => (normalize_escape v).getD detected.escape
        | none => detected.escape
      terminator :=
        match o.line_ending with
        | some v =>
          match normalize_line_ending v with
          | some (t, _) => t
          | none => Terminator.crlf
        | none =>
          (normalize_line_ending detected.line_ending).elim
            Terminator.crlf (·.1)
      line_ending :=
        match o.line_ending with
        | some v =>
          match normalize_line_ending v with
          | some (_, e) => e
          | none => detected.line_ending
        | none => detected.line_ending
      has_headers := o.has_headers.getD detected.has_headers
      encoding_label :=
        match o.encoding with
        | some v =>
          match forLabel (normalize_encoding_alias v) with
          | some name => name
          | none => detected.encoding_label
        | none => detected.encoding_label
      malformed :=
        match o.malformed with
        | some v => MalformedMode.from_str v
        | none => .skip
      max_field_size := o.max_field_size.getD (256 * 1024)
      max_record_size := o.max_record_size.getD (2 * 1024 * 1024) }

/-- C10: overrides whose delimiter, quote, escape, line-ending or encoding
string is unrecognized (no alias match, and not an accepted single
character) leave the corresponding effective-dialect field equal to the
detected value; `apply_parse_overrides` is total, so no override input
produces an error. -/
theorem apply_parse_overrides_unrecognized
    (detected : DetectedSettings) (o : ParseOverrides)
    (forLabel : String → Option String) :
    (∀ v, o.delimiter = some v → normalize_delimiter v = none →
      (apply_parse_overrides detected (some o) forLabel).delimiter =
        detected.delimiter) ∧
    (∀ v, o.quote = some v → normalize_quote v = none →
      (apply_parse_overrides detected (some o) forLabel).quote =
        detected.quote) ∧
    (∀ v, o.escape = some v → normalize_escape v = none →
      (apply_parse_overrides detected (some o) forLabel).escape =
        detected.escape) ∧
    (∀ v, o.line_ending = some v → normalize_line_ending v = none →
      (apply_parse_overrides detected (some o) forLabel).line_ending =
        detected.line_ending) ∧
    (∀ v, o.encoding = some v →
      forLabel (normalize_encoding_alias v) = none →
      (apply_parse_overrides detected (some o) forLabel).encoding_label =
        detected.encoding_label) := by
  refine ⟨?_, ?_, ?_, ?_, ?_⟩ <;> intro v hv hnone <;>
    simp [apply_parse_overrides, hv, hnone]

/-- Witness for C10: an override carrying only unrecognized strings leaves
every claimed field at its detected value. -/
theorem apply_parse_overrides_unrecognized_witness :
    (apply_parse_overrides ⟨';', '\'', none, "lf", "utf-8", true⟩
        (some ⟨some "zz", some "zz", some "zz", some "zz", some "zz",
          none, none, none, none⟩)
        (fun _ => none)).delimiter = ';' ∧
    (apply_parse_overrides ⟨';', '\'', none, "lf", "utf-8", true⟩
        (some ⟨some "zz", some "zz", some "zz", some "zz", some "zz",
          none, none, none, none⟩)
        (fun _ => none)).line_ending = "lf" := by
  have h := apply_parse_overrides_unrecognized
    ⟨';', '\'', none, "lf", "utf-8", true⟩
    ⟨some "zz", some "zz", some "zz", some "zz", some "zz",
      none, none, none, none⟩ (fun _ => none)
  exact ⟨h.1 "zz" rfl (by decide), h.2.2.2.1 "zz" rfl (by decide)⟩

/-! ### Delimiter detection (`detect_delimiter`, claim C6) -/

/-- Split a character list at newline characters (`str::lines` before the
trailing-segment adjustment). -/
def splitOnNl : List Char → List (List Char)
  | [] => [[]]
  | c :: cs =>
    if c = '\n' then [] :: splitOnNl cs
    else
      match splitOnNl cs with
      | [] => [[c]]
      | l :: ls => (c :: l) :: ls

/-- `str::lines`: split at `\n`, drop a final empty segment, strip one
trailing `\r` per line. -/
def str_lines (s : String) : List (List Char) :=
  let parts := splitOnNl s.data
  let parts := if parts.getLast? = some [] then parts.dropLast else parts
  parts.map (fun l => if l.getLast? = some '\r' then l.dropLast else l)

/-- The first 20 non-blank sample lines used by `detect_delimiter`. -/
def detection_lines (sample : String) : List (List Char) :=
  ((str_lines sample).filter (fun l => !l.all isWsChar)).take 20

/-- The quote-aware field-counting loop of `count_fields`.  The two-step
consumption of a doubled quote is written with an explicit two-element
pattern so the recursion is structural. -/
def count_fields_aux (d q : Char) : List Char → Bool → Nat → Option Nat
  | [], inQ, cnt => if inQ then none else some cnt
  | [c], inQ, cnt =>
    if c = q then
      if inQ then some cnt else none
    else if c = d ∧ inQ = false then some (cnt + 1)
    else if inQ then none else some cnt
  | c :: c2 :: cs, inQ, cnt =>
    if c = q then
      if inQ then
        if c2 = q then count_fields_aux d q cs true cnt
        else count_fields_aux d q (c2 :: cs) false cnt
      else count_fields_aux d q (c2 :: cs) true cnt
    else if c = d ∧ inQ = false then
      count_fields_aux d q (c2 :: cs) inQ (cnt + 1)
    else count_fields_aux d q (c2 :: cs) inQ cnt

/-- `count_fields` from `csv_handler.rs`: `none` for blank lines and for
lines with an unterminated quote. -/
def count_fields (line : List Char) (d q : Char) : Option Nat :=
  if line.all isWsChar then none
  else count_fields_aux d q line false 1

/-- The modal field count of `detect_delimiter`: maximize `(freq, count)`
lexicographically over the frequency map.  The composite key has no ties
(distinct counts), so the result does not depend on the hash-map iteration
order of the source. -/
def modal_field_count (counts : List Nat) : Option (Nat × Nat) :=
  match counts.dedup.map (fun c => (c, counts.count c)) with
  | [] => none
  | e :: es =>
    some (es.foldl
      (fun best x =>
        if best.2 < x.2 ∨ (best.2 = x.2 ∧ best.1 < x.1) then x else best) e)

/-- Per-candidate `(mode, frequency)` as computed inside the
`detect_delimiter` loop: `none` when fewer than two lines parsed. -/
def mode_freq (lines : List (List Char)) (q cand : Char) :
    Option (Nat × Nat) :=
  let counts := lines.filterMap (fun line => count_fields line cand q)
  if counts.length < 2 then none
  else modal_field_count counts

/-- The candidate-selection step of `detect_delimiter`'s loop: replace the
best `(candidate, mode, freq)` when the new mode exceeds 1 and the new
frequency strictly exceeds the current best frequency. -/
def detect_fold_step (mf : Char → Option (Nat × Nat))
    (best : Char × Nat × Nat) (cand : Char) : Char × Nat × Nat :=
  (mf cand).elim best
    (fun p => if 1 < p.1 ∧ best.2.2 < p.2 then (cand, p.1, p.2) else best)

/-- The candidate order tried by `detect_delimiter`. -/
def delimiter_candidates : List Char := [',', '\t', ';', '|']

/-- `detect_delimiter` from `csv_handler.rs`. -/
def detect_delimiter (sample : String) (quote : Char) : Char :=
  (delimiter_candidates.foldl
    (detect_fold_step (mode_freq (detection_lines sample) quote))
    (',', 0, 0)).1

/-- A candidate's qualifying modal frequency: `some freq` when at least two
lines parsed and the modal field count is at least 2. -/
def candidate_score (mf : Char → Option (Nat × Nat)) (c : Char) :
    Option Nat :=
  (mf c).bind (fun p => if 1 < p.1 then some p.2 else none)

/-! #### C6 helper lemmas -/

theorem foldl_pick_mem {a : Type} (p : a → a → Prop) [DecidableRel p]
    (e : a) (es : List a) :
    es.foldl (fun best x => if p best x then x else best) e ∈ e :: es := by
  induction es generalizing e with
  | nil => simp
  | cons x xs ih =>
    simp only [List.foldl_cons]
    by_cases h : p e x
    · rw [if_pos h]
      rcases List.mem_cons.mp (ih x) with h1 | h1
      · rw [h1]
        exact List.mem_cons_of_mem e (List.mem_cons_self x xs)
      · exact List.mem_cons_of_mem e (List.mem_cons_of_mem x h1)
    · rw [if_neg h]
      rcases List.mem_cons.mp (ih e) with h1 | h1
      · rw [h1]
        exact List.mem_cons_self e _
      · exact List.mem_cons_of_mem e (List.mem_cons_of_mem x h1)

theorem modal_field_count_mem {counts : List Nat} {p : Nat × Nat}
    (h : modal_field_count counts = some p) :
    p ∈ counts.dedup.map (fun c => (c, counts.count c)) := by
  rw [modal_field_count] at h
  rcases he : counts.dedup.map (fun c => (c, counts.count c)) with _ | ⟨e, es⟩ <;>
    rw [he] at h
  · exact absurd h (by simp)
  · rw [Option.some_inj] at h
    rw [← h]
    exact foldl_pick_mem
      (fun best x => best.2 < x.2 ∨ (best.2 = x.2 ∧ best.1 < x.1)) e es

theorem candidate_score_pos {lines : List (List Char)} {q c : Char} {f : Nat}
    (h : candidate_score (mode_freq lines q) c = some f) : 1 ≤ f := by
  rw [candidate_score] at h
  rcases hmf : mode_freq lines q c with _ | ⟨mc, freq⟩ <;>
    rw [hmf] at h <;> simp only [Option.bind] at h
  · exact absurd h (by simp)
  · by_cases hc : 1 < mc
    · rw [if_pos hc, Option.some_inj] at h
      rw [mode_freq] at hmf
      by_cases hlen :
          (lines.filterMap (fun line => count_fields line c q)).length < 2
      · rw [if_pos hlen] at hmf
        exact absurd hmf (by simp)
      · rw [if_neg hlen] at hmf
        have hmem := modal_field_count_mem hmf
        simp only [List.mem_map] at hmem
        obtain ⟨a, ha, heq⟩ := hmem
        have ha2 : a ∈ lines.filterMap (fun line => count_fields line c q) :=
          List.mem_dedup.mp ha
        have hpos : 0 <
            (lines.filterMap (fun line => count_fields line c q)).count a :=
          List.count_pos_iff.mpr ha2
        have hfr : (lines.filterMap
            (fun line => count_fields line c q)).count a = freq := by
          have := congrArg Prod.snd heq
          simpa using this
        omega
    · rw [if_neg hc] at h
      exact absurd h (by simp)

theorem detect_fold_step_cases (mf : Char → Option (Nat × Nat))
    (b : Char × Nat × Nat) (c : Char) :
    detect_fold_step mf b c = b ∨
      (∃ mc f, mf c = some (mc, f) ∧ 1 < mc ∧ b.2.2 < f ∧
        detect_fold_step mf b c = (c, mc, f) ∧
        candidate_score mf c = some f) := by
  rw [detect_fold_step]
  rcases hmf : mf c with _ | ⟨mc, f⟩
  · exact Or.inl rfl
  · simp only [Option.elim]
    by_cases hcond : 1 < mc ∧ b.2.2 < f
    · refine Or.inr ⟨mc, f, rfl, hcond.1, hcond.2, by rw [if_pos hcond], ?_⟩
      rw [candidate_score, hmf]
      simp only [Option.bind]
      rw [if_pos hcond.1]
    · rw [if_neg hcond]
      exact Or.inl rfl

theorem detect_fold_step_score_le (mf : Char → Option (Nat × Nat))
    (b : Char × Nat × Nat) (c : Char) (f : Nat)
    (hs : candidate_score mf c = some f) :
    f ≤ (detect_fold_step mf b c).2.2 := by
  rw [candidate_score] at hs
  rcases hmf : mf c with _ | ⟨mc, g⟩ <;>
    rw [hmf] at hs <;> simp only [Option.bind] at hs
  · exact absurd hs (by simp)
  · rw [detect_fold_step, hmf]
    simp only [Option.elim]
    by_cases hmc : 1 < mc
    · rw [if_pos hmc, Option.some_inj] at hs
      by_cases hcond : 1 < mc ∧ b.2.2 < g
      · rw [if_pos hcond]
        show f ≤ g
        omega
      · rw [if_neg hcond]
        have hle : g ≤ b.2.2 := by
          by_contra hgt
          exact hcond ⟨hmc, by omega⟩
        omega
    · rw [if_neg hmc] at hs
      exact absurd hs (by simp)

theorem detect_fold_invariant (mf : Char → Option (Nat × Nat))
    (cands : List Char) (b : Char × Nat × Nat) :
    (∀ c ∈ cands, ∀ f, candidate_score mf c = some f →
      f ≤ (cands.foldl (detect_fold_step mf) b).2.2) ∧
    b.2.2 ≤ (cands.foldl (detect_fold_step mf) b).2.2 ∧
    (cands.foldl (detect_fold_step mf) b = b ∨
      ∃ pre post,
        cands = pre ++ (cands.foldl (detect_fold_step mf) b).1 :: post ∧
        candidate_score mf (cands.foldl (detect_fold_step mf) b).1 =
          some (cands.foldl (detect_fold_step mf) b).2.2 ∧
        b.2.2 < (cands.foldl (detect_fold_step mf) b).2.2 ∧
        (∀ c ∈ pre, ∀ f, candidate_score mf c = some f →
          f < (cands.foldl (detect_fold_step mf) b).2.2)) := by
  induction cands generalizing b with
  | nil => simp
  | cons c cs ih =>
    simp only [List.foldl_cons]
    obtain ⟨ihA, ihMono, ihC⟩ := ih (detect_fold_step mf b c)
    have hb2mono : b.2.2 ≤ (detect_fold_step mf b c).2.2 := by
      rcases detect_fold_step_cases mf b c with hk | ⟨mc, f, _, _, hlt, hupd, _⟩
      · rw [hk]
      · rw [hupd]
        exact le_of_lt hlt
    refine ⟨?_, le_trans hb2mono ihMono, ?_⟩
    · intro x hx f hs
      rcases List.mem_cons.mp hx with hx | hx
      · subst hx
        exact le_trans (detect_fold_step_score_le mf b x f hs) ihMono
      · exact ihA x hx f hs
    · rcases ihC with hres | ⟨pre, post, hsplit, hsc, hgt, hpre⟩
      · rcases detect_fold_step_cases mf b c with hk |
          ⟨mc, f, _, _, hlt, hupd, hscore⟩
        · rw [hres, hk]
          exact Or.inl rfl
        · refine Or.inr ⟨[], cs, ?_, ?_, ?_, by simp⟩
          · rw [hres, hupd]
            simp
          · rw [hres, hupd]
            exact hscore
          · rw [hres, hupd]
            exact hlt
      · refine Or.inr ⟨c :: pre, post, ?_, hsc, ?_, ?_⟩
        · rw [List.cons_append, ← hsplit]
        · exact lt_of_le_of_lt hb2mono hgt
        · intro x hx f hs
          rcases List.mem_cons.mp hx with hx | hx
          · subst hx
            exact lt_of_le_of_lt
              (detect_fold_step_score_le mf b x f hs) hgt
          · exact hpre x hx f hs

/-- C6 (amended): `detect_delimiter` either returns `,` when no candidate
qualifies (at least two parsed lines and a modal field count above 1), or
returns the earliest candidate — in the order comma, tab, semicolon, pipe —
whose qualifying modal frequency is maximal: every earlier candidate scores
strictly below it and every later candidate at most it.  Ties between
candidates are therefore broken toward the earlier candidate, not toward
the larger mode. -/
theorem detect_delimiter_amended (sample : String) (quote : Char) :
    ((∀ c ∈ delimiter_candidates,
        candidate_score (mode_freq (detection_lines sample) quote) c = none) ∧
      detect_delimiter sample quote = ',') ∨
    (∃ g pre post, delimiter_candidates =
        pre ++ detect_delimiter sample quote :: post ∧
      candidate_score (mode_freq (detection_lines sample) quote)
        (detect_delimiter sample quote) = some g ∧
      (∀ c ∈ pre, ∀ f,
        candidate_score (mode_freq (detection_lines sample) quote) c =
          some f → f < g) ∧
      (∀ c ∈ post, ∀ f,
        candidate_score (mode_freq (detection_lines sample) quote) c =
          some f → f ≤ g)) := by
  obtain ⟨hA, hMono, hC⟩ :=
    detect_fold_invariant (mode_freq (detection_lines sample) quote)
      delimiter_candidates (',', 0, 0)
  have hres : detect_delimiter sample quote =
      (delimiter_candidates.foldl
        (detect_fold_step (mode_freq (detection_lines sample) quote))
        (',', 0, 0)).1 := rfl
  rcases hC with hbase | ⟨pre, post, hsplit, hsc, _, hpre⟩
  · left
    constructor
    · intro c hc
      rcases hs : candidate_score (mode_freq (detection_lines sample) quote) c
        with _ | f
      · rfl
      · have h1 : 1 ≤ f := candidate_score_pos hs
        have h2 := hA c hc f hs
        rw [hbase] at h2
        simp at h2
        omega
    · rw [hres, hbase]
  · right
    refine ⟨(delimiter_candidates.foldl
        (detect_fold_step (mode_freq (detection_lines sample) quote))
        (',', 0, 0)).2.2, pre, post, ?_, ?_, ?_, ?_⟩
    · rw [hres]
      exact hsplit
    · rw [hres]
      exact hsc
    · intro c hc f hs
      exact hpre c hc f hs
    · intro c hc f hs
      refine hA c ?_ f hs
      rw [hsplit]
      simp [hc]

/-- Counterexample for C6 as stated: on the sample `"a,b;c;d\ne,f;g;h"`,
comma and semicolon both reach modal frequency 2, semicolon with the larger
mode 3 — the claim's tie-break demands `;`, but the source keeps the
earlier candidate and returns `,`. -/
theorem detect_delimiter_tie_counterexample :
    detect_delimiter "a,b;c;d\ne,f;g;h" '"' = ',' ∧
    mode_freq (detection_lines "a,b;c;d\ne,f;g;h") '"' ',' = some (2, 2) ∧
    mode_freq (detection_lines "a,b;c;d\ne,f;g;h") '"' ';' = some (3, 2) ∧
    detect_delimiter "a,b;c;d\ne,f;g;h" '"' ≠ ';' := by
  refine ⟨by decide, by decide, by decide, by decide⟩

/-! ### Generic list helpers (indexing, insertion sort, substring) -/

/-- Pair each element with its index, starting at `i`. -/
def idxFrom (i : Nat) : List α → List (Nat × α)
  | [] => []
  | a :: as => (i, a) :: idxFrom (i + 1) as

/-- Insert into a sorted list (the inner step of insertion sort). -/
def insertBy (le : α → α → Bool) (a : α) : List α → List α
  | [] => [a]
  | b :: bs => if le a b then a :: b :: bs else b :: insertBy le a bs

/-- Deterministic insertion sort, the model of Rust's in-place sorts.  The
library sorts are unstable; on inputs where the comparator is antisymmetric
this is irrelevant, and the tie-dependent claims below are settled on
two-element already-sorted inputs, where the library performs no swaps and
agrees with this model. -/
def sortBy (le : α → α → Bool) : List α → List α
  | [] => []
  | a :: as => insertBy le a (sortBy le as)

/-- `sort_unstable` on row-id lists. -/
def sortNat (l : List Nat) : List Nat :=
  sortBy (fun a b => decide (a ≤ b)) l

/-- `l` starts with `p`. -/
def startsWithList [DecidableEq α] : List α → List α → Bool
  | _, [] => true
  | [], _ :: _ => false
  | a :: as, b :: bs => decide (a = b) && startsWithList as bs

/-- `p` occurs as a contiguous run inside `l` (Rust `str::contains`, on
characters; for valid UTF-8 byte-level and character-level containment
agree). -/
def containsList [DecidableEq α] (p : List α) : List α → Bool
  | [] => startsWithList [] p
  | a :: as => startsWithList (a :: as) p || containsList p as

/-- `haystack.contains(needle)` on strings. -/
def containsStr (haystack needle : String) : Bool :=
  containsList needle.data haystack.data

/-! ### Record policies (`csv_handler.rs`) -/

/-- `apply_length_policy` from `csv_handler.rs`: `.error` is the strict
failure, `.ok none` is a dropped row, `.ok (some _)` a kept (possibly
repaired) row. -/
def apply_length_policy (fields : List String) (expected : Option Nat)
    (s : ParseSettings) : Except Unit (Option (List String)) :=
  match expected with
  | none => .ok (some fields)
  | some e =>
    if fields.length = e then .ok (some fields)
    else
      match s.malformed with
      | .strict => .error ()
      | .skip => .ok none
      | .repair =>
        if fields.length < e then
          .ok (some (fields ++ List.replicate (e - fields.length) ""))
        else .ok (some (fields.take e))

/-- The per-field loop of `enforce_size_limits`: truncates oversized fields
in repair mode and accumulates the (post-truncation) total byte size. -/
def field_size_loop (s : ParseSettings) :
    List String → Except Unit (Option (List String × Nat))
  | [] => .ok (some ([], 0))
  | f :: fs =>
    if s.max_field_size < utf8Len f then
      match s.malformed with
      | .strict => .error ()
      | .skip => .ok none
      | .repair =>
        let f2 := truncate_to_bytes f s.max_field_size
        match field_size_loop s fs with
        | .error e => .error e
        | .ok none => .ok none
        | .ok (some (rest, t)) => .ok (some (f2 :: rest, utf8Len f2 + t))
    else
      match field_size_loop s fs with
      | .error e => .error e
      | .ok none => .ok none
      | .ok (some (rest, t)) => .ok (some (f :: rest, utf8Len f + t))

/-- The pop-from-the-end loop of `enforce_size_limits`' repair branch,
acting on the reversed field list. -/
def pop_fit (maxRec : Nat) : List String → Nat → List String
  | [], _ => []
  | f :: rest, total =>
    if maxRec < total then pop_fit maxRec rest (total - utf8Len f)
    else f :: rest

/-- `enforce_size_limits` from `csv_handler.rs`. -/
def enforce_size_limits (fields : List String) (s : ParseSettings) :
    Except Unit (Option (List String)) :=
  match field_size_loop s fields with
  | .error e => .error e
  | .ok none => .ok none
  | .ok (some (fields2, total)) =>
    if s.max_record_size < total then
      match s.malformed with
      | .strict => .error ()
      | .skip => .ok none
      | .repair => .ok (some ((pop_fit s.max_record_size fields2.reverse total).reverse))
    else .ok (some fields2)

/-- The shared per-record read pipeline of the chunk readers: decode (with
optional BOM strip), length policy, size policy. -/
def read_chunk_step (s : ParseSettings) (expected : Option Nat)
    (record : List String) (stripFlag : Bool) :
    Except Unit (Option (List String)) :=
  let decoded := decode_record record stripFlag
  match apply_length_policy decoded expected s with
  | .error e => .error e
  | .ok none => .ok none
  | .ok (some d2) => enforce_size_limits d2 s

/-! ### Offset building (`build_row_offsets_from_reader`, claims C1, C7) -/

/-- The build-time violation check of `build_row_offsets_from_reader`: a
record violates when its raw field count differs from the expected count,
some raw field exceeds the field cap, or the raw total exceeds the record
cap.  (In skip mode the source may short-circuit before accumulating the
full total, but by then `skip_row` is already set, so the kept/dropped
decision is this disjunction.) -/
def recordViolation (s : ParseSettings) (expected : Option Nat)
    (record : List String) : Bool :=
  expected.elim false (fun e => decide (record.length ≠ e)) ||
  record.any (fun f => decide (s.max_field_size < utf8Len f)) ||
  decide (s.max_record_size < (record.map utf8Len).sum)

/-- A record receives an offset entry unless skip mode drops it. -/
def keepRecord (s : ParseSettings) (expected : Option Nat)
    (record : List String) : Bool :=
  !(decide (s.malformed = MalformedMode.skip) &&
    recordViolation s expected record)

/-- The loop of `build_row_offsets_from_reader`, instrumented for the
progress callback: each callback invocation is recorded as the pair
`(value passed to the callback, number of offsets collected when it
fires)`.  The callback check happens after the potential offset push, as in
the source. -/
def build_row_offsets_loop (s : ParseSettings) (expected : Option Nat) :
    List (List String) → Nat → List Nat → List (Nat × Nat) →
    Except Unit (List Nat × List (Nat × Nat))
  | [], _, offs, calls => .ok (offs.reverse, calls.reverse)
  | r :: rs, rowIndex, offs, calls =>
    if s.malformed = MalformedMode.strict ∧ recordViolation s expected r then
      .error ()
    else
      let offs2 := if keepRecord s expected r then rowIndex :: offs else offs
      let calls2 :=
        if rowIndex % 10000 = 0 then (rowIndex, offs2.length) :: calls
        else calls
      build_row_offsets_loop s expected rs (rowIndex + 1) offs2 calls2

/-- `build_row_offsets_from_reader` from `csv_handler.rs` (the header, when
present, has already been consumed: `records` are data records). -/
def build_row_offsets_from_reader (s : ParseSettings) (expected : Option Nat)
    (records : List (List String)) :
    Except Unit (List Nat × List (Nat × Nat)) :=
  build_row_offsets_loop s expected records 0 [] []

/-! ### Chunk readers (`csv_handler.rs`, claim C1) -/

/-- The loop of `read_chunk_from_reader`: a full sequential scan that
counts kept rows and collects those with kept index in
`[targetStart, targetEnd)`; it stops once `targetEnd` kept rows passed. -/
def read_chunk_loop (s : ParseSettings) (expected : Option Nat)
    (targetStart targetEnd : Nat) :
    List (List String) → Nat → Nat → List (List String) →
    Except Unit (List (List String))
  | [], _, _, rows => .ok rows.reverse
  | r :: rs, rowIndex, keptIndex, rows =>
    match read_chunk_step s expected r (!s.has_headers && rowIndex = 0) with
    | .error e => .error e
    | .ok none =>
      read_chunk_loop s expected targetStart targetEnd rs (rowIndex + 1)
        keptIndex rows
    | .ok (some d) =>
      let rows2 :=
        if targetStart ≤ keptIndex ∧ keptIndex < targetEnd then d :: rows
        else rows
      if targetEnd ≤ keptIndex + 1 then .ok rows2.reverse
      else
        read_chunk_loop s expected targetStart targetEnd rs (rowIndex + 1)
          (keptIndex + 1) rows2

/-- `read_chunk_from_reader` from `csv_handler.rs`. -/
def read_chunk_from_reader (s : ParseSettings) (expected : Option Nat)
    (records : List (List String)) (start count : Nat) :
    Except Unit (List (List String)) :=
  read_chunk_loop s expected start (start + count) records 0 0 []

/-- The row sequence of one full sequential parse: every kept row, in
order. -/
def sequential_rows (s : ParseSettings) (expected : Option Nat)
    (records : List (List String)) : Except Unit (List (List String)) :=
  read_chunk_from_reader s expected records 0 records.length

/-- The loop of `read_chunk_with_offsets_from_reader`: after the single
seek, the source reads `end - start` consecutive physical records,
re-applies the policies and silently drops violating rows (`continue`)
without reading further records to compensate. -/
def read_chunk_with_offsets_loop (s : ParseSettings) (expected : Option Nat) :
    Nat → Nat → List (List String) → List (List String) →
    Except Unit (List (List String))
  | _, _, [], rows => .ok rows.reverse
  | endIdx, rowIndex, r :: rs, rows =>
    if endIdx ≤ rowIndex then .ok rows.reverse
    else
      match read_chunk_step s expected r (!s.has_headers && rowIndex = 0) with
      | .error e => .error e
      | .ok none =>
        read_chunk_with_offsets_loop s expected endIdx (rowIndex + 1) rs rows
      | .ok (some d) =>
        read_chunk_with_offsets_loop s expected endIdx (rowIndex + 1) rs
          (d :: rows)

/-- `read_chunk_with_offsets_from_reader` from `csv_handler.rs`: seek to
`offsets[start]` (modelled as dropping that many physical records), then
read up to `min (start+count) offsets.len - start` consecutive records. -/
def read_chunk_with_offsets_from_reader (s : ParseSettings)
    (expected : Option Nat) (records : List (List String))
    (offsets : List Nat) (start count : Nat) :
    Except Unit (List (List String)) :=
  if offsets.length ≤ start then .ok []
  else
    read_chunk_with_offsets_loop s expected
      (min (start + count) offsets.length) start
      (records.drop (offsets.getD start 0)) []

/-! ### C1: offset-based chunk reads versus the sequential parse -/

/-- C1 (code bug): with the default dialect in skip mode and two expected
columns, the file `[["1","2"],["x"],["3","4"]]` builds offsets `[0, 2]`
(the short record gets no entry), yet reading the chunk `(start 0,
count 2)` through the offsets returns only `[["1","2"]]`: after the single
seek the reader consumes the two *physical* records `["1","2"]` and
`["x"]`, drops the latter at re-validation, and never reads `["3","4"]`.
The sequential parse of the same file yields `[["1","2"],["3","4"]]`, whose
slice `[0, 2)` differs — the spec's gap-free random-access invariant
(§8 invariant 2) fails on the source. -/
theorem read_chunk_with_offsets_gap_bug :
    build_row_offsets_from_reader default_parse_settings (some 2)
      [["1", "2"], ["x"], ["3", "4"]] = .ok ([0, 2], [(0, 1)]) ∧
    read_chunk_with_offsets_from_reader default_parse_settings (some 2)
      [["1", "2"], ["x"], ["3", "4"]] [0, 2] 0 2 = .ok [["1", "2"]] ∧
    sequential_rows default_parse_settings (some 2)
      [["1", "2"], ["x"], ["3", "4"]] = .ok [["1", "2"], ["3", "4"]] ∧
    ([["1", "2"], ["3", "4"]].take 2 ≠ [["1", "2"]]) := by
  refine ⟨by decide, by decide, by decide, by decide⟩

/-! ### C7: the offset-building progress callback -/

/-- The offsets produced by the build pass, as a closed formula: the
physical indices of the kept records. -/
def offsets_formula (s : ParseSettings) (expected : Option Nat)
    (rs : List (List String)) (i : Nat) : List Nat :=
  ((idxFrom i rs).filter (fun p => keepRecord s expected p.2)).map Prod.fst

/-- The callback invocations of the build pass, as a closed formula: one
invocation per physical record whose index is a multiple of 10000, passing
that physical index, while the kept count at that moment is the number of
kept records among the first `t + 1`. -/
def calls_formula (s : ParseSettings) (expected : Option Nat)
    (rs : List (List String)) (i k : Nat) : List (Nat × Nat) :=
  ((List.range rs.length).filter (fun t => (i + t) % 10000 = 0)).map
    (fun t => (i + t,
      k + ((rs.take (t + 1)).filter (keepRecord s expected)).length))

theorem calls_formula_cons (s : ParseSettings) (expected : Option Nat)
    (r : List String) (rest : List (List String)) (i k : Nat) :
    calls_formula s expected (r :: rest) i k =
      (if i % 10000 = 0 then
        [(i, k + (if keepRecord s expected r then 1 else 0))] else []) ++
      calls_formula s expected rest (i + 1)
        (k + (if keepRecord s expected r then 1 else 0)) := by
  rw [calls_formula]
  rw [List.length_cons, List.range_succ_eq_map]
  rw [List.filter_cons]
  have htake1 : ∀ t : Nat, ((r :: rest).take (t + 1 + 1)).filter
      (keepRecord s expected) =
      (if keepRecord s expected r then [r] else []) ++
        ((rest.take (t + 1)).filter (keepRecord s expected)) := by
    intro t
    rw [List.take_succ_cons, List.filter_cons]
    by_cases hk : keepRecord s expected r
    · simp [hk]
    · simp [hk]
  have htail :
      List.map ((fun t => (i + t, k +
          (((r :: rest).take (t + 1)).filter (keepRecord s expected)).length))
            ∘ Nat.succ)
        ((List.range rest.length).filter
          ((fun t => decide ((i + t) % 10000 = 0)) ∘ Nat.succ)) =
      calls_formula s expected rest (i + 1)
        (k + (if keepRecord s expected r then 1 else 0)) := by
    rw [calls_formula]
    have hpq : (List.range rest.length).filter
        ((fun t => decide ((i + t) % 10000 = 0)) ∘ Nat.succ) =
        (List.range rest.length).filter
          (fun t => decide ((i + 1 + t) % 10000 = 0)) := by
      apply List.filter_congr
      intro t _
      simp only [Function.comp]
      have harith : i + Nat.succ t = i + 1 + t := by omega
      rw [harith]
    rw [hpq]
    apply List.map_congr_left
    intro t _
    simp only [Function.comp]
    have harith : Nat.succ t + 1 = t + 1 + 1 := by omega
    rw [harith, htake1 t]
    by_cases hk : keepRecord s expected r <;>
      simp [hk, Prod.mk.injEq] <;> omega
  have ht1 : (r :: rest).take 1 = [r] := rfl
  by_cases h0 : i % 10000 = 0
  · rw [if_pos (by simpa using h0), if_pos h0]
    rw [List.filter_map, List.map_cons, List.map_map]
    rw [htail]
    simp only [List.cons_append, List.nil_append]
    congr 2
    rw [Nat.add_zero, ht1, List.filter_cons]
    by_cases hk : keepRecord s expected r <;> simp [hk]
  · rw [if_neg (by simpa using h0), if_neg h0]
    rw [List.filter_map, List.map_map]
    rw [htail]
    simp

theorem build_row_offsets_loop_spec (s : ParseSettings)
    (expected : Option Nat) (hstrict : s.malformed ≠ .strict) :
    ∀ (rs : List (List String)) (i : Nat) (offs : List Nat)
      (calls : List (Nat × Nat)),
      build_row_offsets_loop s expected rs i offs calls =
        .ok (offs.reverse ++ offsets_formula s expected rs i,
             calls.reverse ++ calls_formula s expected rs i offs.length) := by
  intro rs
  induction rs with
  | nil =>
    intro i offs calls
    simp [build_row_offsets_loop, offsets_formula, calls_formula, idxFrom]
  | cons r rest ih =>
    intro i offs calls
    rw [build_row_offsets_loop]
    rw [if_neg (fun h => hstrict h.1)]
    rw [ih]
    rw [calls_formula_cons]
    have hoffs : offsets_formula s expected (r :: rest) i =
        (if keepRecord s expected r then [i] else []) ++
          offsets_formula s expected rest (i + 1) := by
      rw [offsets_formula, offsets_formula, idxFrom, List.filter_cons]
      by_cases hk : keepRecord s expected r <;> simp [hk]
    rw [hoffs]
    by_cases hk : keepRecord s expected r <;>
      by_cases h0 : i % 10000 = 0 <;>
        simp [hk, h0, List.append_assoc]

/-- C7 (amended): in the non-strict modes the build pass invokes the
progress callback exactly at the physical records 0, 10000, 20000, …, and
each invocation passes that physical record index — the count of all
records read before the current one, including skipped ones — not the
running kept-row count (which at that moment is the number of kept records
among the first `t + 1`, recorded in the second component). -/
theorem build_row_offsets_progress_physical (s : ParseSettings)
    (expected : Option Nat) (records : List (List String))
    (hstrict : s.malformed ≠ .strict) :
    build_row_offsets_from_reader s expected records =
      .ok (((idxFrom 0 records).filter
              (fun p => keepRecord s expected p.2)).map Prod.fst,
           ((List.range records.length).filter (fun t => t % 10000 = 0)).map
             (fun t => (t, ((records.take (t + 1)).filter
                (keepRecord s expected)).length))) := by
  rw [build_row_offsets_from_reader, build_row_offsets_loop_spec s expected hstrict]
  simp [offsets_formula, calls_formula]

/-- Witness for C7 on a one-record file in skip mode: the single callback
fires at physical index 0. -/
theorem build_row_offsets_progress_physical_witness :
    build_row_offsets_from_reader default_parse_settings (some 1) [["a"]] =
      .ok ([0], [(0, 1)]) := by
  rw [build_row_offsets_progress_physical default_parse_settings (some 1)
    [["a"]] (by decide)]
  decide

theorem filter_replicate_of_pos {α : Type} {p : α → Bool} {a : α}
    (h : p a = true) : ∀ n : Nat,
    (List.replicate n a).filter p = List.replicate n a := by
  intro n
  induction n with
  | zero => rfl
  | succ m ih =>
    rw [List.replicate_succ, List.filter_cons, if_pos (by simp [h]), ih,
      ← List.replicate_succ]

theorem range_filter_mod_10000 : ∀ n : Nat,
    (List.range n).filter (fun t => decide (t % 10000 = 0)) =
      (List.range ((n + 9999) / 10000)).map (· * 10000) := by
  intro n
  induction n with
  | zero => rfl
  | succ m ih =>
    rw [List.range_succ, List.filter_append, ih]
    by_cases hm : m % 10000 = 0
    · have hc1 : (m + 9999) / 10000 = m / 10000 := by omega
      have hc2 : (m + 1 + 9999) / 10000 = m / 10000 + 1 := by omega
      rw [hc1, hc2, List.range_succ, List.map_append]
      congr 1
      simp only [List.filter_cons, List.filter_nil, List.map_cons,
        List.map_nil]
      rw [if_pos (by simpa using hm)]
      have hmul : m / 10000 * 10000 = m := by omega
      rw [hmul]
    · have hc : (m + 1 + 9999) / 10000 = (m + 9999) / 10000 := by omega
      rw [hc]
      simp only [List.filter_cons, List.filter_nil]
      rw [if_neg (by simpa using hm)]
      simp

/-- Counterexample for C7 as stated: with two malformed records followed by
9999 good ones (skip mode, one expected column), the second callback passes
10000 — the physical record index — while the running kept-row count at
that invocation is 9999.  The callback therefore does not pass the kept-row
count. -/
theorem build_row_offsets_progress_counterexample :
    Except.map Prod.snd
      (build_row_offsets_from_reader default_parse_settings (some 1)
        (["x", "y"] :: ["x", "y"] :: List.replicate 9999 ["a"])) =
      .ok [(0, 0), (10000, 9999)] ∧ (10000 : Nat) ≠ 9999 := by
  constructor
  · rw [build_row_offsets_from_reader,
      build_row_offsets_loop_spec default_parse_settings (some 1)
      (by decide)]
    simp only [Except.map, List.reverse_nil, List.nil_append, List.length_nil]
    have hlen : (["x", "y"] :: ["x", "y"] ::
        List.replicate 9999 (["a"] : List String)).length = 10001 := by
      rw [List.length_cons, List.length_cons, List.length_replicate]
    rw [calls_formula, hlen]
    have hz : (fun t => decide ((0 + t) % 10000 = 0)) =
        (fun t : Nat => decide (t % 10000 = 0)) := by
      funext t
      rw [Nat.zero_add]
    rw [hz, range_filter_mod_10000]
    have hrange : ((List.range ((10001 + 9999) / 10000)).map (· * 10000)) =
        [0, 10000] := by decide
    rw [hrange]
    have hkeep : keepRecord default_parse_settings (some 1) ["a"] = true := by
      decide
    have hdrop : keepRecord default_parse_settings (some 1) ["x", "y"] =
        false := by decide
    simp only [List.map_cons, List.map_nil]
    have htake0 : ((["x", "y"] :: ["x", "y"] ::
        List.replicate 9999 (["a"] : List String)).take (0 + 1)).filter
          (keepRecord default_parse_settings (some 1)) = [] := by
      rw [show ((["x", "y"] :: ["x", "y"] ::
        List.replicate 9999 (["a"] : List String)).take (0 + 1)) =
          [["x", "y"]] from rfl]
      rw [List.filter_cons, if_neg (by simp [hdrop]), List.filter_nil]
    have htakeall : ((["x", "y"] :: ["x", "y"] ::
        List.replicate 9999 (["a"] : List String)).take (10000 + 1)).filter
          (keepRecord default_parse_settings (some 1)) =
        List.replicate 9999 ["a"] := by
      have hta : (["x", "y"] :: ["x", "y"] ::
          List.replicate 9999 (["a"] : List String)).take (10000 + 1) =
          ["x", "y"] :: ["x", "y"] :: List.replicate 9999 ["a"] := by
        apply List.take_of_length_le
        rw [List.length_cons, List.length_cons, List.length_replicate]
      rw [hta]
      rw [List.filter_cons, List.filter_cons]
      rw [if_neg (by simp [hdrop]), if_neg (by simp [hdrop])]
      exact filter_replicate_of_pos hkeep 9999
    rw [htake0, htakeall]
    rw [List.length_nil, List.length_replicate]
  · decide

/-! ### Duplicate finder (`find_duplicates_hashed`, claim C2) -/

/-- The loop of `read_rows_by_index_from_reader`: indices are visited in
ascending row order with their original slots; a seek happens unless the
next row id is exactly the previous one plus one, in which case the reader
just continues at the next physical record.  Out-of-range ids and failed
reads leave the slot empty; a dropped row stores an empty record. -/
def read_rows_by_index_loop (s : ParseSettings) (expected : Option Nat)
    (records : List (List String)) (offsets : List Nat) :
    List (Nat × Nat) → Option Nat → Nat → List (List String) →
    Except Unit (List (List String))
  | [], _, _, rows => .ok rows
  | (rowIndex, orderIdx) :: rest, last, physPos, rows =>
    if offsets.length ≤ rowIndex then
      read_rows_by_index_loop s expected records offsets rest last physPos rows
    else
      let pos := if last.elim true (fun l => rowIndex ≠ l + 1)
        then offsets.getD rowIndex 0 else physPos
      match records[pos]? with
      | none =>
        read_rows_by_index_loop s expected records offsets rest last physPos
          rows
      | some r =>
        match read_chunk_step s expected r (!s.has_headers && rowIndex = 0) with
        | .error e => .error e
        | .ok res =>
          read_rows_by_index_loop s expected records offsets rest
            (some rowIndex) (pos + 1) (rows.set orderIdx (res.getD []))

/-- `read_rows_by_index_from_reader` from `csv_handler.rs`. -/
def read_rows_by_index_from_reader (s : ParseSettings) (expected : Option Nat)
    (records : List (List String)) (offsets : List Nat)
    (indices : List Nat) : Except Unit (List (List String)) :=
  if indices.isEmpty then .ok []
  else
    read_rows_by_index_loop s expected records offsets
      (sortBy (fun a b => decide (a.1 ≤ b.1))
        ((idxFrom 0 indices).map (fun p => (p.2, p.1))))
      none 0 (List.replicate indices.length [])

/-- The field list fed to the hasher for one record: the selected cell when
a column is given (nothing when it is missing), else every field. -/
def hash_key (columnIdx : Option Nat) (record : List String) :
    List String :=
  match columnIdx with
  | some idx => (record[idx]?).elim [] (fun f => [f])
  | none => record

/-- `compute_hashes_from_reader` from `csv_handler.rs`: seek once to
`offsets[0]`, then read `offsets.len()` *consecutive* physical records
(stopping early at end of file), hashing each and pairing it with the
consecutive index `i` — not with the record that `offsets[i]` points at. -/
def compute_hashes_from_reader (hashFn : List String → Nat)
    (records : List (List String)) (offsets : List Nat)
    (columnIdx : Option Nat) : List (Nat × Nat) :=
  match offsets with
  | [] => []
  | o0 :: _ =>
    (idxFrom 0 ((records.drop o0).take offsets.length)).map
      (fun p => (hashFn (hash_key columnIdx p.2), p.1))

/-- Group a (sorted) hash list into maximal runs of equal hashes. -/
def groupRuns : List (Nat × Nat) → List (List (Nat × Nat))
  | [] => []
  | p :: ps =>
    match groupRuns ps with
    | [] => [[p]]
    | [] :: rest => [p] :: [] :: rest
    | (q :: qs) :: rest =>
      if p.1 = q.1 then (p :: q :: qs) :: rest
      else [p] :: (q :: qs) :: rest

/-- Append a value to the entry of `key` in an association list, creating
the entry at the end if missing — the model of `HashMap::entry(..).
or_default().push(..)` (iteration order of the map is irrelevant to every
use below, which sorts afterwards). -/
def assoc_push {κ : Type} [DecidableEq κ] :
    List (κ × List Nat) → κ → Nat → List (κ × List Nat)
  | [], key, v => [(key, [v])]
  | (k, vs) :: rest, key, v =>
    if k = key then (k, vs ++ [v]) :: rest
    else (k, vs) :: assoc_push rest key v

/-- The verification step of `find_duplicates_hashed` for one collision
run: re-read the candidate rows through the offsets (correctly, with one
seek per non-consecutive id), group them by the projected key — the single
cell or the whole field list, so field boundaries stay distinct — and keep
every group of size at least 2. -/
def verify_group (s : ParseSettings) (records : List (List String))
    (offsets : List Nat) (columnIdx : Option Nat)
    (candidates : List Nat) : Except Unit (List Nat) :=
  match read_rows_by_index_from_reader s none records offsets candidates with
  | .error e => .error e
  | .ok rows =>
    let keyed := (idxFrom 0 rows).map (fun p =>
      ((match columnIdx with
        | some idx => [p.2.getD idx ""]
        | none => p.2), candidates.getD p.1 0))
    let m := keyed.foldl (fun acc kv => assoc_push acc kv.1 kv.2) []
    .ok ((m.filter (fun e => 2 ≤ e.2.length)).map Prod.snd).flatten

/-- Process the collision runs in order, concatenating the confirmed
duplicates. -/
def verify_groups (s : ParseSettings) (records : List (List String))
    (offsets : List Nat) (columnIdx : Option Nat) :
    List (List (Nat × Nat)) → Except Unit (List Nat)
  | [] => .ok []
  | g :: gs =>
    match verify_group s records offsets columnIdx (g.map Prod.snd) with
    | .error e => .error e
    | .ok d =>
      match verify_groups s records offsets columnIdx gs with
      | .error e => .error e
      | .ok ds => .ok (d ++ ds)

/-- `find_duplicates_hashed` from `csv_handler.rs` (the buffered-file
path): hash pass, sort by hash, collision runs of size at least 2, verify,
sort ascending.  `hashFn` abstracts `DefaultHasher`. -/
def find_duplicates_hashed (hashFn : List String → Nat)
    (records : List (List String)) (offsets : List Nat)
    (s : ParseSettings) (columnIdx : Option Nat) : Except Unit (List Nat) :=
  let safe := { s with has_headers := false }
  let hashes := compute_hashes_from_reader hashFn records offsets columnIdx
  let sorted := sortBy (fun a b => decide (a.1 ≤ b.1)) hashes
  let groups := (groupRuns sorted).filter (fun g => 2 ≤ g.length)
  match verify_groups safe records offsets columnIdx groups with
  | .error e => .error e
  | .ok ds => .ok (sortNat ds)

/-- C2 (code bug): on the file
`[["x","1"], ["y"], ["x","1"], ["x","1"]]` in skip mode with two expected
columns, the offsets are `[0, 2, 3]` (the one-field record is dropped), so
the three kept rows — ids 0, 1, 2 — are all `["x","1"]` and the claim
demands `[0, 1, 2]`.  But the hash pass of the buffered path seeks once to
`offsets[0]` and then hashes `offsets.len()` *consecutive* physical
records, so id 1 is hashed with the skipped record `["y"]`; as long as the
hasher separates `["y"]` from `["x","1"]` (true of the real SipHash-based
`DefaultHasher`), id 1 lands outside the collision run and the function
returns only `[0, 2]`.  The mmap variant seeks per row and does not have
this misalignment. -/
theorem find_duplicates_hashed_misses_gap (hashFn : List String → Nat)
    (hlt : hashFn ["y"] < hashFn ["x", "1"]) :
    build_row_offsets_from_reader default_parse_settings (some 2)
      [["x", "1"], ["y"], ["x", "1"], ["x", "1"]] =
        .ok ([0, 2, 3], [(0, 1)]) ∧
    find_duplicates_hashed hashFn
      [["x", "1"], ["y"], ["x", "1"], ["x", "1"]] [0, 2, 3]
      default_parse_settings none = .ok [0, 2] ∧
    (∀ i ∈ [0, 2, 3], [["x", "1"], ["y"], ["x", "1"],
      ["x", "1"]].getD i [] = ["x", "1"]) ∧
    ([0, 2] : List Nat) ≠ [0, 1, 2] := by
  have e2 : decide (hashFn ["y"] ≤ hashFn ["x", "1"]) = true :=
    decide_eq_true (le_of_lt hlt)
  have e1 : decide (hashFn ["x", "1"] ≤ hashFn ["y"]) = false :=
    decide_eq_false (by omega)
  have e3 : decide (hashFn ["x", "1"] ≤ hashFn ["x", "1"]) = true :=
    decide_eq_true le_rfl
  have e5 : ¬(hashFn ["y"] = hashFn ["x", "1"]) := by omega
  refine ⟨by decide, ?_, by decide, by decide⟩
  have hhashes : compute_hashes_from_reader hashFn
      [["x", "1"], ["y"], ["x", "1"], ["x", "1"]] [0, 2, 3] none =
      [(hashFn ["x", "1"], 0), (hashFn ["y"], 1), (hashFn ["x", "1"], 2)] :=
    rfl
  have hsorted : sortBy (fun a b : Nat × Nat => decide (a.1 ≤ b.1))
      [(hashFn ["x", "1"], 0), (hashFn ["y"], 1), (hashFn ["x", "1"], 2)] =
      [(hashFn ["y"], 1), (hashFn ["x", "1"], 0), (hashFn ["x", "1"], 2)] := by
    simp only [sortBy, insertBy, e1, e2, e3]
    simp
  have hruns : groupRuns
      [(hashFn ["y"], 1), (hashFn ["x", "1"], 0), (hashFn ["x", "1"], 2)] =
      [[(hashFn ["y"], 1)],
       [(hashFn ["x", "1"], 0), (hashFn ["x", "1"], 2)]] := by
    simp only [groupRuns]
    simp [e5]
  have hverify : verify_groups
      { default_parse_settings with has_headers := false }
      [["x", "1"], ["y"], ["x", "1"], ["x", "1"]] [0, 2, 3] none
      [[(hashFn ["x", "1"], 0), (hashFn ["x", "1"], 2)]] = .ok [0, 2] := by
    have hmap : ([(hashFn ["x", "1"], 0),
        (hashFn ["x", "1"], 2)].map Prod.snd) = [0, 2] := rfl
    rw [verify_groups, hmap]
    rw [show verify_group { default_parse_settings with has_headers := false }
      [["x", "1"], ["y"], ["x", "1"], ["x", "1"]] [0, 2, 3] none [0, 2] =
        .ok [0, 2] from by decide]
    rw [verify_groups]
    rfl
  rw [find_duplicates_hashed]
  simp only [hhashes, hsorted, hruns]
  rw [show ([[(hashFn ["y"], 1)],
      [(hashFn ["x", "1"], 0), (hashFn ["x", "1"], 2)]].filter
        (fun g => decide (2 ≤ g.length))) =
      [[(hashFn ["x", "1"], 0), (hashFn ["x", "1"], 2)]] from by
    simp [List.filter]]
  rw [hverify]
  rfl

/-- Witness for C2's theorem: the field-count function is a hash that
separates the two distinct records. -/
theorem find_duplicates_hashed_misses_gap_witness :
    find_duplicates_hashed List.length
      [["x", "1"], ["y"], ["x", "1"], ["x", "1"]] [0, 2, 3]
      default_parse_settings none = .ok [0, 2] ∧
    ([0, 2] : List Nat) ≠ [0, 1, 2] := by
  have h := find_duplicates_hashed_misses_gap List.length (by decide)
  exact ⟨h.2.1, h.2.2.2⟩

/-! ### Sort engine (`sort_csv`, claim C3) -/

/-- Byte-lexicographic strict comparison on character lists; for valid
UTF-8, Rust's byte-wise `str::cmp` coincides with code-point order. -/
def charListLt : List Char → List Char → Bool
  | [], [] => false
  | [], _ :: _ => true
  | _ :: _, [] => false
  | a :: as, b :: bs =>
    if a < b then true else if b < a then false else charListLt as bs

/-- The `≤` of Rust's `Ord::cmp` on strings. -/
def strLe (a b : String) : Bool := !charListLt b.data a.data

/-- The sort stage of `sort_csv` in `lib.rs`: the projection loop produces
the `(row-id, truncated value)` vector `idxFrom 0 keys`; ascending sorts by
`a.1.cmp(&b.1)` on the values, descending by `b.1.cmp(&a.1)`, and the
permutation is the row-id column of the result. -/
def sort_csv_order (keys : List String) (ascending : Bool) : List Nat :=
  let rows := idxFrom 0 keys
  let sorted :=
    if ascending then sortBy (fun a b => strLe a.2 b.2) rows
    else sortBy (fun a b => strLe b.2 a.2) rows
  sorted.map Prod.fst

/-! #### Order lemmas for the insertion-sort model -/

theorem charListLt_asymm :
    ∀ {a b : List Char}, charListLt a b = true → charListLt b a = false := by
  intro a
  induction a with
  | nil =>
    intro b h
    cases b with
    | nil => exact absurd h (by simp [charListLt])
    | cons x xs => simp [charListLt]
  | cons x xs ih =>
    intro b h
    cases b with
    | nil => exact absurd h (by simp [charListLt])
    | cons y ys =>
      rw [charListLt] at h ⊢
      by_cases hxy : x < y
      · rw [if_neg (by exact fun hyx => absurd hxy (not_lt_of_gt hyx)),
          if_pos hxy]
      · rw [if_neg hxy] at h
        by_cases hyx : y < x
        · exact absurd h (by rw [if_pos hyx]; simp)
        · rw [if_neg hyx] at h
          rw [if_neg hyx, if_neg hxy]
          exact ih h

theorem charListLt_conn : ∀ {a b : List Char},
    charListLt a b = false → charListLt b a = false → a = b := by
  intro a
  induction a with
  | nil =>
    intro b h1 _
    cases b with
    | nil => rfl
    | cons x xs => exact absurd h1 (by simp [charListLt])
  | cons x xs ih =>
    intro b h1 h2
    cases b with
    | nil => exact absurd h2 (by simp [charListLt])
    | cons y ys =>
      rw [charListLt] at h1 h2
      by_cases hxy : x < y
      · exact absurd h1 (by rw [if_pos hxy]; simp)
      · by_cases hyx : y < x
        · exact absurd h2 (by rw [if_pos hyx]; simp)
        · rw [if_neg hxy, if_neg hyx] at h1
          rw [if_neg hyx, if_neg hxy] at h2
          have hxy2 : x = y := le_antisymm (le_of_not_lt hyx) (le_of_not_lt hxy)
          rw [hxy2, ih h1 h2]

theorem strLe_total (a b : String) : strLe a b = true ∨ strLe b a = true := by
  rw [strLe, strLe]
  rcases h : charListLt b.data a.data with _ | _
  · left
    rfl
  · right
    rw [charListLt_asymm h]
    rfl

theorem charListLt_irrefl (a : List Char) : charListLt a a = false := by
  by_cases h : charListLt a a
  · have h2 := charListLt_asymm h
    rw [h] at h2
    exact absurd h2 (by simp)
  · simpa using h

theorem charListLt_trans : ∀ {a b c : List Char},
    charListLt a b = true → charListLt b c = true →
    charListLt a c = true := by
  intro a
  induction a with
  | nil =>
    intro b c hab hbc
    cases b with
    | nil => exact absurd hab (by simp [charListLt])
    | cons y ys =>
      cases c with
      | nil => exact absurd hbc (by simp [charListLt])
      | cons z zs => simp [charListLt]
  | cons x xs ih =>
    intro b c hab hbc
    cases b with
    | nil => exact absurd hab (by simp [charListLt])
    | cons y ys =>
      cases c with
      | nil => exact absurd hbc (by simp [charListLt])
      | cons z zs =>
        rw [charListLt] at hab hbc ⊢
        by_cases hxy : x < y
        · by_cases hyz : y < z
          · rw [if_pos (lt_trans hxy hyz)]
          · rw [if_neg hyz] at hbc
            by_cases hzy : z < y
            · exact absurd hbc (by rw [if_pos hzy]; simp)
            · have hyz2 : y = z := le_antisymm (le_of_not_lt hzy)
                (le_of_not_lt hyz)
              rw [if_pos (hyz2 ▸ hxy)]
        · rw [if_neg hxy] at hab
          by_cases hyx : y < x
          · exact absurd hab (by rw [if_pos hyx]; simp)
          · rw [if_neg hyx] at hab
            have hxy2 : x = y := le_antisymm (le_of_not_lt hyx)
              (le_of_not_lt hxy)
            subst hxy2
            by_cases hxz : x < z
            · rw [if_pos hxz]
            · rw [if_neg hxz] at hbc ⊢
              by_cases hzx : z < x
              · exact absurd hbc (by rw [if_pos hzx]; simp)
              · rw [if_neg hzx] at hbc ⊢
                exact ih hab hbc

theorem strLe_antisymm {a b : String} (h1 : strLe a b = true)
    (h2 : strLe b a = true) : a = b := by
  rw [strLe, Bool.not_eq_true'] at h1 h2
  have := charListLt_conn h2 h1
  cases a
  cases b
  exact congrArg String.mk this

theorem strLe_trans {a b c : String} (h1 : strLe a b = true)
    (h2 : strLe b c = true) : strLe a c = true := by
  rw [strLe, Bool.not_eq_true'] at h1 h2 ⊢
  have hab : charListLt a.data b.data = true ∨ a.data = b.data := by
    by_cases h : charListLt a.data b.data
    · exact Or.inl h
    · exact Or.inr (charListLt_conn (by simpa using h) h1)
  have hbc : charListLt b.data c.data = true ∨ b.data = c.data := by
    by_cases h : charListLt b.data c.data
    · exact Or.inl h
    · exact Or.inr (charListLt_conn (by simpa using h) h2)
  rcases hab with hab | hab <;> rcases hbc with hbc | hbc
  · exact charListLt_asymm (charListLt_trans hab hbc)
  · rw [← hbc]
    exact charListLt_asymm hab
  · rw [hab]
    exact charListLt_asymm hbc
  · rw [hab, hbc]
    exact charListLt_irrefl _

theorem perm_insertBy {α : Type} (le : α → α → Bool) (a : α) (l : List α) :
    List.Perm (insertBy le a l) (a :: l) := by
  induction l with
  | nil => exact List.Perm.refl _
  | cons b bs ih =>
    rw [insertBy]
    by_cases h : le a b
    · rw [if_pos h]
    · rw [if_neg h]
      exact (ih.cons b).trans (List.Perm.swap a b bs)

theorem perm_sortBy {α : Type} (le : α → α → Bool) (l : List α) :
    List.Perm (sortBy le l) l := by
  induction l with
  | nil => exact List.Perm.refl _
  | cons a as ih =>
    exact (perm_insertBy le a (sortBy le as)).trans (ih.cons a)

theorem mem_sortBy {α : Type} {le : α → α → Bool} {l : List α} {x : α} :
    x ∈ sortBy le l ↔ x ∈ l :=
  (perm_sortBy le l).mem_iff

theorem length_sortBy {α : Type} (le : α → α → Bool) (l : List α) :
    (sortBy le l).length = l.length :=
  (perm_sortBy le l).length_eq

theorem pairwise_insertBy {α : Type} {le : α → α → Bool}
    (htot : ∀ x y, le x y = true ∨ le y x = true)
    (htrans : ∀ x y z, le x y = true → le y z = true → le x z = true)
    {a : α} {l : List α}
    (h : l.Pairwise (fun x y => le x y = true)) :
    (insertBy le a l).Pairwise (fun x y => le x y = true) := by
  induction l with
  | nil => simp [insertBy]
  | cons b bs ih =>
    rw [insertBy]
    rcases h with _ | ⟨hb, hbs⟩
    by_cases hab : le a b
    · rw [if_pos hab]
      refine List.Pairwise.cons ?_ (List.Pairwise.cons hb hbs)
      intro c hc
      rcases List.mem_cons.mp hc with hc | hc
      · rw [hc]
        exact hab
      · exact htrans a b c hab (hb c hc)
    · rw [if_neg hab]
      refine List.Pairwise.cons ?_ (ih hbs)
      intro c hc
      have hc2 := (perm_insertBy le a bs).mem_iff.mp hc
      rcases List.mem_cons.mp hc2 with hc2 | hc2
      · rw [hc2]
        rcases htot a b with h1 | h1
        · exact absurd h1 hab
        · exact h1
      · exact hb c hc2

theorem pairwise_sortBy {α : Type} {le : α → α → Bool}
    (htot : ∀ x y, le x y = true ∨ le y x = true)
    (htrans : ∀ x y z, le x y = true → le y z = true → le x z = true)
    (l : List α) :
    (sortBy le l).Pairwise (fun x y => le x y = true) := by
  induction l with
  | nil => simp [sortBy]
  | cons a as ih => exact pairwise_insertBy htot htrans ih

theorem eq_of_perm_of_pairwise {α : Type} {R : α → α → Prop} :
    ∀ {l₁ l₂ : List α}, List.Perm l₁ l₂ → l₁.Pairwise R → l₂.Pairwise R →
      (∀ a ∈ l₁, ∀ b ∈ l₁, R a b → R b a → a = b) → l₁ = l₂ := by
  intro l₁
  induction l₁ with
  | nil =>
    intro l₂ hp _ _ _
    exact (List.Perm.nil_eq hp).symm ▸ rfl
  | cons a t₁ ih =>
    intro l₂ hp hp1 hp2 hanti
    cases l₂ with
    | nil => exact absurd hp.symm (by simp)
    | cons b t₂ =>
      rcases hp1 with _ | ⟨ha1, ht1⟩
      rcases hp2 with _ | ⟨hb2, ht2⟩
      have hab : a = b := by
        by_cases heq : a = b
        · exact heq
        · have hamem : a ∈ b :: t₂ := hp.mem_iff.mp (by simp)
          have hbmem : b ∈ a :: t₁ := hp.mem_iff.mpr (by simp)
          have hat2 : a ∈ t₂ := by
            rcases List.mem_cons.mp hamem with h | h
            · exact absurd h heq
            · exact h
          have hbt1 : b ∈ t₁ := by
            rcases List.mem_cons.mp hbmem with h | h
            · exact absurd h.symm heq
            · exact h
          exact hanti a (by simp) b (by simp [hbt1]) (ha1 b hbt1) (hb2 a hat2)
      subst hab
      have ht : List.Perm t₁ t₂ := hp.cons_inv
      have := ih ht ht1 ht2 (fun x hx y hy hxy hyx =>
        hanti x (by simp [hx]) y (by simp [hy]) hxy hyx)
      rw [this]

/-! #### C3 lemmas about the indexed rows -/

theorem snd_mem_of_mem_idxFrom {α : Type} :
    ∀ {l : List α} {i : Nat} {p : Nat × α}, p ∈ idxFrom i l → p.2 ∈ l := by
  intro l
  induction l with
  | nil =>
    intro i p h
    exact absurd h (by simp [idxFrom])
  | cons a as ih =>
    intro i p h
    rw [idxFrom] at h
    rcases List.mem_cons.mp h with h | h
    · rw [h]
      simp
    · exact List.mem_cons_of_mem a (ih h)

theorem idxFrom_inj_snd {α : Type} :
    ∀ {l : List α}, l.Nodup → ∀ {i : Nat} {p q : Nat × α},
      p ∈ idxFrom i l → q ∈ idxFrom i l → p.2 = q.2 → p = q := by
  intro l
  induction l with
  | nil =>
    intro _ i p q hp _ _
    exact absurd hp (by simp [idxFrom])
  | cons a as ih =>
    intro hnd i p q hp hq heq
    rcases List.nodup_cons.mp hnd with ⟨hna, hnas⟩
    rw [idxFrom] at hp hq
    rcases List.mem_cons.mp hp with hp | hp <;>
      rcases List.mem_cons.mp hq with hq | hq
    · rw [hp, hq]
    · exfalso
      apply hna
      have : q.2 ∈ as := snd_mem_of_mem_idxFrom hq
      rw [hp] at heq
      simpa [← heq] using this
    · exfalso
      apply hna
      have : p.2 ∈ as := snd_mem_of_mem_idxFrom hp
      rw [hq] at heq
      simpa [heq] using this
    · exact ih hnas hp hq heq

/-- Counterexample for C3 as stated: with two equal keys `["a", "a"]` the
ascending and descending sorts both keep the input order `[0, 1]` (no
comparator orders the ties), so the reversed ascending permutation `[1, 0]`
is not the descending permutation `[0, 1]`. -/
theorem sort_csv_reverse_counterexample :
    (sort_csv_order ["a", "a"] true).reverse = [1, 0] ∧
    sort_csv_order ["a", "a"] false = [0, 1] ∧
    (sort_csv_order ["a", "a"] true).reverse ≠
      sort_csv_order ["a", "a"] false := by
  refine ⟨by decide, by decide, by decide⟩

/-- C3 (amended): whenever the projected (truncated) sort keys are pairwise
distinct, the reversed ascending permutation equals the descending
permutation element by element; with duplicate keys the two unstable sorts
need not be exact reverses of each other (the key multisets still are). -/
theorem sort_csv_asc_reverse_eq_desc (keys : List String)
    (hnd : keys.Nodup) :
    (sort_csv_order keys true).reverse = sort_csv_order keys false := by
  rw [sort_csv_order, sort_csv_order]
  simp only [if_pos, if_neg, Bool.false_eq_true, ite_true, ite_false]
  rw [← List.map_reverse]
  congr 1
  have htotA : ∀ x y : Nat × String,
      strLe x.2 y.2 = true ∨ strLe y.2 x.2 = true :=
    fun x y => strLe_total x.2 y.2
  have htotD : ∀ x y : Nat × String,
      strLe y.2 x.2 = true ∨ strLe x.2 y.2 = true :=
    fun x y => (strLe_total x.2 y.2).symm
  have htrA : ∀ x y z : Nat × String, strLe x.2 y.2 = true →
      strLe y.2 z.2 = true → strLe x.2 z.2 = true :=
    fun _ _ _ h1 h2 => strLe_trans h1 h2
  have htrD : ∀ x y z : Nat × String, strLe y.2 x.2 = true →
      strLe z.2 y.2 = true → strLe z.2 x.2 = true :=
    fun _ _ _ h1 h2 => strLe_trans h2 h1
  have hA := @pairwise_sortBy (Nat × String)
    (fun a b => strLe a.2 b.2) htotA htrA (idxFrom 0 keys)
  have hD := @pairwise_sortBy (Nat × String)
    (fun a b => strLe b.2 a.2) htotD
    (fun x y z h1 h2 => strLe_trans h2 h1) (idxFrom 0 keys)
  have hArev : (sortBy (fun a b : Nat × String => strLe a.2 b.2)
      (idxFrom 0 keys)).reverse.Pairwise
        (fun a b : Nat × String => strLe b.2 a.2 = true) := by
    rw [List.pairwise_reverse]
    exact hA
  have hperm : List.Perm
      ((sortBy (fun a b : Nat × String => strLe a.2 b.2)
        (idxFrom 0 keys)).reverse)
      (sortBy (fun a b : Nat × String => strLe b.2 a.2) (idxFrom 0 keys)) :=
    ((List.reverse_perm _).trans
      (perm_sortBy _ (idxFrom 0 keys))).trans
      (perm_sortBy _ (idxFrom 0 keys)).symm
  refine eq_of_perm_of_pairwise hperm hArev hD ?_
  intro a ha b hb hab hba
  have hamem : a ∈ idxFrom 0 keys :=
    (perm_sortBy _ (idxFrom 0 keys)).mem_iff.mp
      ((List.reverse_perm _).mem_iff.mp ha)
  have hbmem : b ∈ idxFrom 0 keys :=
    (perm_sortBy _ (idxFrom 0 keys)).mem_iff.mp
      ((List.reverse_perm _).mem_iff.mp hb)
  exact idxFrom_inj_snd hnd hamem hbmem (strLe_antisymm hba hab)

/-- Witness for C3 on scenario S5: keys `["b","a","c"]` sort ascending to
`[1, 0, 2]`; the reversed permutation is the descending one. -/
theorem sort_csv_asc_reverse_eq_desc_witness :
    (sort_csv_order ["b", "a", "c"] true).reverse =
      sort_csv_order ["b", "a", "c"] false :=
  sort_csv_asc_reverse_eq_desc ["b", "a", "c"] (by decide)

/-! ### Search (`lib.rs`, claims C4 and C5) -/

/-- `SEARCH_CHUNK_SIZE` from `lib.rs`. -/
def SEARCH_CHUNK_SIZE : Nat := 25000

/-- `BULK_CHUNK_SIZE` from `lib.rs`. -/
def BULK_CHUNK_SIZE : Nat := 10000

/-- `INDEX_VALUE_MAX_LEN` from `lib.rs`. -/
def INDEX_VALUE_MAX_LEN : Nat := 256

/-- `INDEX_MAX_CARDINALITY` from `lib.rs`. -/
def INDEX_MAX_CARDINALITY : Nat := 2000000

/-- `RESULT_CHUNK_SIZE` from `lib.rs`. -/
def RESULT_CHUNK_SIZE : Nat := 5000

/-- The `check_match` closure shared by `search_csv` and
`search_csv_stream` (and inlined in `search_range_with_offsets_from_reader`
in `csv_handler.rs`): case-insensitive matching lowercases the cell and
compares with the pre-processed query. -/
def check_match (match_case whole_word : Bool) (query_processed : String)
    (cell : String) : Bool :=
  if !match_case then
    let val_lower := strToLower cell
    if whole_word then decide (val_lower = query_processed)
    else containsStr val_lower query_processed
  else
    if whole_word then decide (cell = query_processed)
    else containsStr cell query_processed

/-- Row-level match: a specific column (`record.get(index)`, out-of-range
is no match) or any cell. -/
def row_is_match (column_idx : Option Nat) (cm : String → Bool)
    (r : List String) : Bool :=
  match column_idx with
  | some i => ((r[i]?).map cm).getD false
  | none => r.any cm

/-- `query_processed`: the query, lowercased unless `match_case`. -/
def process_query (match_case : Bool) (query : String) : String :=
  if match_case then query else strToLower query

/-- Query-key truncation mirrored from indexing (`lib.rs`). -/
def index_query_key (query_processed : String) : String :=
  if INDEX_VALUE_MAX_LEN < utf8Len query_processed then
    truncate_utf8 query_processed INDEX_VALUE_MAX_LEN
  else query_processed

/-- The key stored by `build_search_index`: truncate to 256 bytes first
when oversized, then lowercase. -/
def indexKey (cell : String) : String :=
  if INDEX_VALUE_MAX_LEN < utf8Len cell then
    strToLower (truncate_utf8 cell INDEX_VALUE_MAX_LEN)
  else strToLower cell

/-- Association-list model of one column's `HashMap<Box<str>, Vec<u32>>`. -/
def lookupAssoc : List (String × List Nat) → String → Option (List Nat)
  | [], _ => none
  | (k, v) :: rest, q => if k = q then some v else lookupAssoc rest q

/-- `col_index.entry(key).or_insert_with(Vec::new).push(row_index)`. -/
def colInsert : List (String × List Nat) → String → Nat →
    List (String × List Nat)
  | [], k, r => [(k, [r])]
  | (k0, v) :: rest, k, r =>
    if k0 = k then (k0, v ++ [r]) :: rest
    else (k0, v) :: colInsert rest k r

/-- Rust `Vec::dedup`: removes consecutive repeats. -/
def dedupAdj : List Nat → List Nat
  | [] => []
  | [a] => [a]
  | a :: b :: rest =>
    if a = b then dedupAdj (b :: rest) else a :: dedupAdj (b :: rest)

/-- The contains-search over the index keys — this block is textually
identical in `search_csv` and `search_csv_stream`: filter the keys that
contain the query key, flatten their row lists, `par_sort_unstable`,
`dedup`. -/
def index_contains_matches (col_index : List (String × List Nat))
    (query_key : String) : List Nat :=
  dedupAdj (sortNat
    (((col_index.filter (fun kv => containsStr kv.1 query_key)).map
      Prod.snd).flatten))

/-- The per-record loop of `search_range_with_offsets_from_reader`: after
the single seek, read consecutive physical records, stopping at
end-of-file, and push the row indices that match. -/
def search_range_loop (records : List (List String))
    (isM : List String → Bool) : Nat → Nat → Nat → List Nat
  | _, _, 0 => []
  | pos, row_index, n + 1 =>
    (records[pos]?).elim []
      (fun record => (if isM record then [row_index] else []) ++
        search_range_loop records isM (pos + 1) (row_index + 1) n)

/-- `search_range_with_offsets_from_reader` from `csv_handler.rs`: empty
when `start` is out of range, otherwise seek to `offsets[start]` and scan
`min end offsets.len - start` consecutive records (cells are matched raw:
no length or size policy is re-applied here). -/
def search_range_with_offsets (records : List (List String))
    (offsets : List Nat) (start e : Nat) (column_idx : Option Nat)
    (query : String) (match_case whole_word : Bool) : List Nat :=
  if offsets.length ≤ start then []
  else
    search_range_loop records
      (row_is_match column_idx (check_match match_case whole_word query))
      (offsets.getD start 0) start (min e offsets.length - start)

/-- `(0..total).step_by(SEARCH_CHUNK_SIZE)` paired with each range's
exclusive end `min (start + SEARCH_CHUNK_SIZE) total`. -/
def stepRanges (total : Nat) : List (Nat × Nat) :=
  (List.range ((total + SEARCH_CHUNK_SIZE - 1) / SEARCH_CHUNK_SIZE)).map
    (fun i => (i * SEARCH_CHUNK_SIZE,
      min (i * SEARCH_CHUNK_SIZE + SEARCH_CHUNK_SIZE) total))

/-- The offsets branch shared by `search_csv` and `search_csv_stream`:
per-range results concatenated in range order (rayon's indexed
fold/reduce), then `sort_unstable`. -/
def offsets_scan_matches (records : List (List String))
    (offsets : List Nat) (column_idx : Option Nat)
    (query_processed : String) (match_case whole_word : Bool) : List Nat :=
  sortNat (((stepRanges offsets.length).map
    (fun se => search_range_with_offsets records offsets se.1 se.2
      column_idx query_processed match_case whole_word)).flatten)

/-- The sequential no-offsets fallback of `search_csv`: scan every physical
record (BOM-stripping the first when headerless), collecting matching
physical indices. -/
def seq_scan_matches (s : ParseSettings) (column_idx : Option Nat)
    (query_processed : String) (match_case whole_word : Bool) :
    Nat → List (List String) → List Nat
  | _, [] => []
  | idx, record :: rest =>
    let decoded := decode_record record (!s.has_headers && idx = 0)
    (if row_is_match column_idx (check_match match_case whole_word
        query_processed) decoded then [idx] else []) ++
      seq_scan_matches s column_idx query_processed match_case whole_word
        (idx + 1) rest

/-- `SearchIndex` from `lib.rs` (the per-column maps, `None` for a column
whose index was dropped). -/
structure SearchIndex where
  ready : Bool
  columns : List (Option (List (String × List Nat)))

/-- The searchable session state: index, optional row offsets, the
physical records of the file, parse settings. -/
structure SearchState where
  index : SearchIndex
  row_offsets : Option (List Nat)
  records : List (List String)
  settings : ParseSettings

/-- The non-index part of `search_csv`: the parallel offsets scan when
offsets exist, else the sequential fallback. -/
def scan_search (st : SearchState) (column_idx : Option Nat)
    (query_processed : String) (match_case whole_word : Bool) : List Nat :=
  match st.row_offsets with
  | some offsets =>
    offsets_scan_matches st.records offsets column_idx query_processed
      match_case whole_word
  | none =>
    seq_scan_matches st.settings column_idx query_processed match_case
      whole_word 0 st.records

/-- `search_csv` from `lib.rs`: the index branch (whole-word lookup or
contains scan) when the index is ready, matching is case-insensitive and
the chosen column has an index; otherwise the parallel offsets scan;
otherwise the sequential fallback. -/
def search_csv (st : SearchState) (column_idx : Option Nat)
    (query : String) (match_case whole_word : Bool) : List Nat :=
  let query_processed := process_query match_case query
  let indexResult : Option (List Nat) :=
    if st.index.ready && !match_case then
      match column_idx with
      | some col_idx =>
        match st.index.columns[col_idx]? with
        | some (some col_index) =>
          let query_key := index_query_key query_processed
          if whole_word then
            match lookupAssoc col_index query_key with
            | some rows => some (sortNat rows)
            | none => some []
          else some (index_contains_matches col_index query_key)
        | _ => none
      | none => none
    else none
  match indexResult with
  | some result => result
  | none => scan_search st column_idx query_processed match_case whole_word

/-- `slice::chunks(n)`: segments of `n` elements with a shorter final
segment; never produces an empty segment.  Structural recursion on a fuel
bound of `l.length`. -/
def chunkListAux (n : Nat) : Nat → List Nat → List (List Nat)
  | 0, _ => []
  | _, [] => []
  | fuel + 1, a :: rest => (a :: rest).take n ::
      chunkListAux n fuel ((a :: rest).drop n)

/-- `matches.chunks(RESULT_CHUNK_SIZE)` followed by `emit_matches_chunk`
per chunk (which skips empty slices — `chunks` yields none). -/
def chunkList (n : Nat) (l : List Nat) : List (List Nat) :=
  chunkListAux n l.length l

/-- The streamed no-offsets fallback loop of `search_csv_stream`: buffer
matches, flush a `search-chunk` event whenever the buffer reaches
`RESULT_CHUNK_SIZE`, and emit the final non-empty buffer at end of input;
`total` accumulates the flushed match counts.  The result is the list of
emitted chunks and the final total. -/
def stream_scan_loop (s : ParseSettings) (column_idx : Option Nat)
    (query_processed : String) (match_case whole_word : Bool) :
    Nat → List (List String) → List Nat → List (List Nat) → Nat →
      List (List Nat) × Nat
  | _, [], buf, chunks, total =>
    (chunks ++ (if buf.isEmpty then [] else [buf]), total + buf.length)
  | idx, record :: rest, buf, chunks, total =>
    let decoded := decode_record record (!s.has_headers && idx = 0)
    if row_is_match column_idx (check_match match_case whole_word
        query_processed) decoded then
      let buf2 := buf ++ [idx]
      if RESULT_CHUNK_SIZE ≤ buf2.length then
        stream_scan_loop s column_idx query_processed match_case whole_word
          (idx + 1) rest [] (chunks ++ [buf2]) (total + buf2.length)
      else
        stream_scan_loop s column_idx query_processed match_case whole_word
          (idx + 1) rest buf2 chunks total
    else
      stream_scan_loop s column_idx query_processed match_case whole_word
        (idx + 1) rest buf chunks total

/-- The non-index part of `search_csv_stream`: the offsets scan emitted in
`chunks(RESULT_CHUNK_SIZE)` with `total = matches.len()`, else the
buffered streaming fallback. -/
def scan_search_stream (st : SearchState) (column_idx : Option Nat)
    (query_processed : String) (match_case whole_word : Bool) :
    List (List Nat) × Nat :=
  match st.row_offsets with
  | some offsets =>
    let ms := offsets_scan_matches st.records offsets column_idx
      query_processed match_case whole_word
    (chunkList RESULT_CHUNK_SIZE ms, ms.length)
  | none =>
    stream_scan_loop st.settings column_idx query_processed match_case
      whole_word 0 st.records [] [] 0

/-- `search_csv_stream` from `lib.rs`, returning the emitted
`search-chunk` payload list and the `search-complete` total.  The branch
structure mirrors `search_csv`; the index and offsets branches compute the
full match list and emit it in `chunks(RESULT_CHUNK_SIZE)` with
`total = matches.len()`. -/
def search_csv_stream (st : SearchState) (column_idx : Option Nat)
    (query : String) (match_case whole_word : Bool) :
    List (List Nat) × Nat :=
  let query_processed := process_query match_case query
  let indexResult : Option (List (List Nat) × Nat) :=
    if st.index.ready && !match_case then
      match column_idx with
      | some col_idx =>
        match st.index.columns[col_idx]? with
        | some (some col_index) =>
          let query_key := index_query_key query_processed
          if whole_word then
            match lookupAssoc col_index query_key with
            | some rows => some (chunkList RESULT_CHUNK_SIZE rows,
                rows.length)
            | none => some ([], 0)
          else
            let ms := index_contains_matches col_index query_key
            some (chunkList RESULT_CHUNK_SIZE ms, ms.length)
        | _ => none
      | none => none
    else none
  match indexResult with
  | some out => out
  | none =>
    scan_search_stream st column_idx query_processed match_case whole_word

theorem chunkListAux_flatten {n : Nat} (hn : 0 < n) :
    ∀ fuel (l : List Nat), l.length ≤ fuel →
      (chunkListAux n fuel l).flatten = l := by
  intro fuel
  induction fuel with
  | zero =>
    intro l hl
    have : l = [] := List.length_eq_zero.mp (Nat.le_zero.mp hl)
    rw [this, chunkListAux]
    rfl
  | succ f ihf =>
    intro l hl
    cases l with
    | nil => rfl
    | cons a rest =>
      rw [chunkListAux, List.flatten_cons, ihf _ ?_,
        List.take_append_drop]
      have h1 : ((a :: rest).drop n).length = (a :: rest).length - n :=
        List.length_drop n (a :: rest)
      have h2 : (a :: rest).length ≤ f + 1 := hl
      omega

theorem chunkListAux_bound {n : Nat} :
    ∀ fuel (l : List Nat) c, c ∈ chunkListAux n fuel l → c.length ≤ n := by
  intro fuel
  induction fuel with
  | zero =>
    intro l c hc
    exact absurd hc (by rw [chunkListAux]; simp)
  | succ f ihf =>
    intro l c hc
    cases l with
    | nil => exact absurd hc (by simp [chunkListAux])
    | cons a rest =>
      rw [chunkListAux] at hc
      rcases List.mem_cons.mp hc with hc | hc
      · rw [hc, List.length_take]
        exact Nat.min_le_left n _
      · exact ihf _ c hc

theorem chunkList_flatten (l : List Nat) :
    (chunkList RESULT_CHUNK_SIZE l).flatten = l :=
  chunkListAux_flatten (by decide) l.length l (Nat.le_refl _)

theorem chunkList_bound (l : List Nat) :
    ∀ c ∈ chunkList RESULT_CHUNK_SIZE l, c.length ≤ RESULT_CHUNK_SIZE :=
  fun c hc => chunkListAux_bound l.length l c hc

/-- Packaging of the chunked-emission branches: when the emitted list `l`
and the direct result agree as sets and in length, the chunked output
satisfies the claim's three properties. -/
theorem chunk_out_spec (l direct : List Nat)
    (hmem : ∀ x, x ∈ l ↔ x ∈ direct) (hlen : l.length = direct.length) :
    (∀ x, x ∈ (chunkList RESULT_CHUNK_SIZE l).flatten ↔ x ∈ direct) ∧
      (∀ c ∈ chunkList RESULT_CHUNK_SIZE l,
        c.length ≤ RESULT_CHUNK_SIZE) ∧
      l.length = direct.length := by
  refine ⟨?_, chunkList_bound l, hlen⟩
  intro x
  rw [chunkList_flatten]
  exact hmem x

/-- Loop invariant of the streamed sequential fallback: the emitted chunks
flatten to the prior chunks plus buffer plus the remaining sequential
matches, the total counts them, and every emitted chunk respects the
bound. -/
theorem stream_scan_loop_spec (s : ParseSettings) (column_idx : Option Nat)
    (q : String) (mc ww : Bool) :
    ∀ (rest : List (List String)) (idx : Nat) (buf : List Nat)
      (chunks : List (List Nat)) (total : Nat),
      buf.length < RESULT_CHUNK_SIZE →
      ((stream_scan_loop s column_idx q mc ww idx rest buf chunks
          total).1.flatten =
        chunks.flatten ++ buf ++
          seq_scan_matches s column_idx q mc ww idx rest) ∧
      ((stream_scan_loop s column_idx q mc ww idx rest buf chunks
          total).2 =
        total + buf.length +
          (seq_scan_matches s column_idx q mc ww idx rest).length) ∧
      (∀ c ∈ (stream_scan_loop s column_idx q mc ww idx rest buf chunks
          total).1, c ∈ chunks ∨ c.length ≤ RESULT_CHUNK_SIZE) := by
  intro rest
  induction rest with
  | nil =>
    intro idx buf chunks total hbuf
    refine ⟨?_, ?_, ?_⟩
    · rw [stream_scan_loop, seq_scan_matches]
      cases buf <;> simp
    · rw [stream_scan_loop, seq_scan_matches]
      simp
    · intro c hc
      rw [stream_scan_loop] at hc
      rcases List.mem_append.mp hc with h | h
      · exact Or.inl h
      · right
        cases hb : buf with
        | nil =>
          rw [hb] at h
          simp at h
        | cons b bs =>
          rw [hb] at h
          simp only [List.isEmpty_cons, if_neg] at h
          have : c = b :: bs := by simpa using h
          rw [this, ← hb]
          exact Nat.le_of_lt hbuf
  | cons r rs ih =>
    intro idx buf chunks total hbuf
    rw [stream_scan_loop, seq_scan_matches]
    simp only []
    by_cases hm : row_is_match column_idx (check_match mc ww q)
      (decode_record r (!s.has_headers && idx = 0)) = true
    · rw [if_pos hm, if_pos hm]
      by_cases hflush : RESULT_CHUNK_SIZE ≤ (buf ++ [idx]).length
      · rw [if_pos hflush]
        obtain ⟨ih1, ih2, ih3⟩ := ih (idx + 1) [] (chunks ++ [buf ++ [idx]])
          (total + (buf ++ [idx]).length) (by decide)
        refine ⟨?_, ?_, ?_⟩
        · rw [ih1]
          simp [List.flatten_append]
        · rw [ih2]
          simp only [List.length_append, List.length_cons,
            List.length_nil]
          omega
        · intro c hc
          rcases ih3 c hc with h | h
          · rcases List.mem_append.mp h with h | h
            · exact Or.inl h
            · right
              have : c = buf ++ [idx] := by simpa using h
              rw [this]
              simp only [List.length_append, List.length_cons,
                List.length_nil]
              omega
          · exact Or.inr h
      · rw [if_neg hflush]
        obtain ⟨ih1, ih2, ih3⟩ := ih (idx + 1) (buf ++ [idx]) chunks total
          (by simp only [List.length_append, List.length_cons,
            List.length_nil] at hflush ⊢; omega)
        refine ⟨?_, ?_, ?_⟩
        · rw [ih1]
          simp
        · rw [ih2]
          simp only [List.length_append, List.length_cons,
            List.length_nil]
          omega
        · exact ih3
    · rw [if_neg hm, if_neg hm]
      obtain ⟨ih1, ih2, ih3⟩ := ih (idx + 1) buf chunks total hbuf
      refine ⟨?_, ?_, ?_⟩
      · rw [ih1]
        simp
      · rw [ih2]
        simp
      · exact ih3

theorem mem_sortNat {l : List Nat} {x : Nat} : x ∈ sortNat l ↔ x ∈ l :=
  mem_sortBy

theorem length_sortNat (l : List Nat) : (sortNat l).length = l.length :=
  length_sortBy _ l

/-- The scan parts of the two search commands agree: same match set,
bounded chunks, exact total. -/
theorem scan_spec (st : SearchState) (column_idx : Option Nat)
    (qp : String) (mc ww : Bool) :
    (∀ x, x ∈ (scan_search_stream st column_idx qp mc ww).1.flatten ↔
        x ∈ scan_search st column_idx qp mc ww) ∧
      (∀ c ∈ (scan_search_stream st column_idx qp mc ww).1,
        c.length ≤ RESULT_CHUNK_SIZE) ∧
      (scan_search_stream st column_idx qp mc ww).2 =
        (scan_search st column_idx qp mc ww).length := by
  cases hro : st.row_offsets with
  | none =>
    simp only [scan_search, scan_search_stream, hro]
    obtain ⟨h1, h2, h3⟩ := stream_scan_loop_spec st.settings column_idx qp
      mc ww st.records 0 [] [] 0 (by decide)
    refine ⟨?_, ?_, ?_⟩
    · intro x
      rw [h1]
      simp
    · intro c hc
      rcases h3 c hc with h | h
      · exact absurd h (by simp)
      · exact h
    · rw [h2]
      simp
  | some offsets =>
    simp only [scan_search, scan_search_stream, hro]
    refine ⟨fun x => ?_, chunkList_bound _, trivial⟩
    rw [chunkList_flatten]

/-- C4: for every session state and every search request, the streaming
search (`search_csv_stream`) and the non-streaming search (`search_csv`)
agree: the union of all emitted `search-chunk` row-id lists equals the
non-streaming result as a set, every emitted chunk holds at most
`RESULT_CHUNK_SIZE` (5 000) row-ids, and the `search-complete` total
equals the number of matches. -/
theorem search_stream_matches_search (st : SearchState)
    (column_idx : Option Nat) (query : String)
    (match_case whole_word : Bool) :
    (∀ x, x ∈ (search_csv_stream st column_idx query match_case
        whole_word).1.flatten ↔
      x ∈ search_csv st column_idx query match_case whole_word) ∧
    (∀ c ∈ (search_csv_stream st column_idx query match_case
        whole_word).1, c.length ≤ RESULT_CHUNK_SIZE) ∧
    (search_csv_stream st column_idx query match_case whole_word).2 =
      (search_csv st column_idx query match_case whole_word).length := by
  simp only [search_csv, search_csv_stream]
  cases hb : st.index.ready && !match_case with
  | false =>
    exact scan_spec st column_idx (process_query match_case query)
      match_case whole_word
  | true =>
    cases column_idx with
    | none =>
      exact scan_spec st none (process_query match_case query)
        match_case whole_word
    | some col =>
      cases hcol : st.index.columns[col]? with
      | none =>
        simp only [hcol]
        exact scan_spec st (some col) (process_query match_case query)
          match_case whole_word
      | some oci =>
        cases oci with
        | none =>
          simp only [hcol]
          exact scan_spec st (some col) (process_query match_case query)
            match_case whole_word
        | some ci =>
          simp only [hcol]
          cases whole_word with
          | false =>
            exact chunk_out_spec
              (index_contains_matches ci
                (index_query_key (process_query match_case query)))
              (index_contains_matches ci
                (index_query_key (process_query match_case query)))
              (fun x => Iff.rfl) rfl
          | true =>
            cases hlook : lookupAssoc ci
              (index_query_key (process_query match_case query)) with
            | none =>
              simp only [hlook]
              exact ⟨fun x => Iff.rfl,
                fun c hc => absurd hc (List.not_mem_nil c), rfl⟩
            | some rows =>
              simp only [hlook]
              exact chunk_out_spec rows (sortNat rows)
                (fun x => mem_sortNat.symm) (length_sortNat rows).symm

/-! ### C5: index-accelerated search versus the scanner
(`build_search_index`, `search_csv` index branch, `lib.rs`) -/

/-- The cell of physical record `x` at column `c`. -/
def cellAt (records : List (List String)) (x c : Nat) : Option String :=
  (records[x]?).bind (fun r => r[c]?)

/-- The inner per-cell loop of `build_search_index`: walk the row's cells
and the per-column maps in lockstep (cells beyond the column list are
skipped, dropped columns stay `none`); insert the key, then drop the
column when its cardinality exceeds `INDEX_MAX_CARDINALITY`. -/
def indexCells : List (Option (List (String × List Nat))) → Nat →
    List String → List (Option (List (String × List Nat)))
  | cols, _, [] => cols
  | [], _, _ :: _ => []
  | none :: cols, r, _ :: cells => none :: indexCells cols r cells
  | some m :: cols, r, cell :: cells =>
    let m2 := colInsert m (indexKey cell) r
    (if INDEX_MAX_CARDINALITY < m2.length then none else some m2) ::
      indexCells cols r cells

/-- Index every row of a chunk, `row_index = start + idx`. -/
def indexRowsFrom : List (Option (List (String × List Nat))) → Nat →
    List (List String) → List (Option (List (String × List Nat)))
  | cols, _, [] => cols
  | cols, i, row :: rows => indexRowsFrom (indexCells cols i row) (i + 1) rows

/-- The chunk loop of `build_search_index`: read `BULK_CHUNK_SIZE` kept
rows through the offsets, stop on error, empty chunk, or a short chunk.
Fuel bounds the iterations (each non-final chunk advances `start`). -/
def build_index_loop (s : ParseSettings) (num_columns : Nat)
    (records : List (List String)) (offsets : List Nat) :
    Nat → Nat → List (Option (List (String × List Nat))) →
      List (Option (List (String × List Nat)))
  | 0, _, cols => cols
  | fuel + 1, start, cols =>
    match read_chunk_with_offsets_from_reader s (some num_columns) records
        offsets start BULK_CHUNK_SIZE with
    | .error _ => cols
    | .ok chunk =>
      if chunk.isEmpty then cols
      else
        let cols2 := indexRowsFrom cols start chunk
        if chunk.length < BULK_CHUNK_SIZE then cols2
        else build_index_loop s num_columns records offsets fuel
          (start + chunk.length) cols2

/-- `build_search_index` from `lib.rs`: with no columns the fresh (not
ready) index is returned unchanged; otherwise every column starts with an
empty map, the chunk loop fills them, and `ready` is set. -/
def build_search_index (s : ParseSettings)
    (records : List (List String)) (offsets : List Nat)
    (num_columns : Nat) : SearchIndex :=
  if num_columns = 0 then ⟨false, []⟩
  else
    ⟨true, build_index_loop s num_columns records offsets
      (offsets.length + 1) 0 (List.replicate num_columns (some []))⟩

/-- A 257-byte cell: 256 `a`s followed by `b`. -/
def big_cell : String := String.mk (List.replicate 256 'a' ++ ['b'])

set_option maxRecDepth 40000 in
/-- Counterexample for C5 as stated: on the single-row file whose only
cell is `big_cell` (257 bytes), the built index stores the key truncated
to 256 bytes (`"a" * 256`), so with the index ready, `match_case = false`,
column 0 given and indexed — all of C5's preconditions — the index-based
contains-search for `"b"` finds nothing, while the scanner, which matches
the full cell, returns row 0. -/
theorem index_search_truncation_counterexample :
    (build_search_index default_parse_settings [[big_cell]] [0] 1).ready
        = true ∧
    (build_search_index default_parse_settings [[big_cell]] [0] 1).columns
        = [some [(String.mk (List.replicate 256 'a'), [0])]] ∧
    search_csv
      ⟨build_search_index default_parse_settings [[big_cell]] [0] 1,
        some [0], [[big_cell]], default_parse_settings⟩
      (some 0) "b" false false = [] ∧
    offsets_scan_matches [[big_cell]] [0] (some 0)
      (process_query false "b") false false = [0] := by
  refine ⟨by decide, by decide, by decide, by decide⟩

theorem lookupAssoc_some_mem :
    ∀ {m : List (String × List Nat)} {k : String} {v : List Nat},
      lookupAssoc m k = some v → (k, v) ∈ m := by
  intro m
  induction m with
  | nil =>
    intro k v h
    exact absurd h (by rw [lookupAssoc]; simp)
  | cons p rest ih =>
    intro k v h
    obtain ⟨k0, v0⟩ := p
    rw [lookupAssoc] at h
    by_cases hk : k0 = k
    · rw [if_pos hk] at h
      have hv : v0 = v := Option.some.inj h
      rw [← hk, ← hv]
      exact List.mem_cons_self _ _
    · rw [if_neg hk] at h
      exact List.mem_cons_of_mem _ (ih h)

theorem mem_dedupAdj : ∀ {l : List Nat} {x : Nat},
    x ∈ dedupAdj l ↔ x ∈ l := by
  intro l
  induction l with
  | nil =>
    intro x
    rw [dedupAdj]
  | cons a rest ih =>
    intro x
    cases rest with
    | nil => rw [dedupAdj]
    | cons b bs =>
      rw [dedupAdj]
      by_cases hab : a = b
      · rw [if_pos hab, ih]
        constructor
        · intro h
          exact List.mem_cons_of_mem a h
        · intro h
          rcases List.mem_cons.mp h with h | h
          · rw [h, hab]
            exact List.mem_cons_self _ _
          · exact h
      · rw [if_neg hab]
        constructor
        · intro h
          rcases List.mem_cons.mp h with h | h
          · rw [h]
            exact List.mem_cons_self _ _
          · exact List.mem_cons_of_mem a (ih.mp h)
        · intro h
          rcases List.mem_cons.mp h with h | h
          · rw [h]
            exact List.mem_cons_self _ _
          · exact List.mem_cons_of_mem a (ih.mpr h)

theorem mem_index_contains {m : List (String × List Nat)} {qk : String}
    {x : Nat} :
    x ∈ index_contains_matches m qk ↔
      ∃ p, p ∈ m ∧ containsStr p.1 qk = true ∧ x ∈ p.2 := by
  rw [index_contains_matches, mem_dedupAdj, mem_sortNat, List.mem_flatten]
  constructor
  · rintro ⟨l, hl, hx⟩
    rw [List.mem_map] at hl
    obtain ⟨p, hp, rfl⟩ := hl
    rw [List.mem_filter] at hp
    exact ⟨p, hp.1, hp.2, hx⟩
  · rintro ⟨p, hp, hc, hx⟩
    exact ⟨p.2, List.mem_map.mpr ⟨p, List.mem_filter.mpr ⟨hp, hc⟩, rfl⟩, hx⟩

theorem search_range_loop_mem (records : List (List String))
    (isM : List String → Bool) :
    ∀ (count pos ridx : Nat), pos + count ≤ records.length →
      ∀ x, x ∈ search_range_loop records isM pos ridx count ↔
        ∃ i, i < count ∧ x = ridx + i ∧
          ∃ r, records[pos + i]? = some r ∧ isM r = true := by
  intro count
  induction count with
  | zero =>
    intro pos ridx hle x
    rw [search_range_loop]
    simp
  | succ n ihn =>
    intro pos ridx hle x
    have hlt : pos < records.length := by omega
    rw [search_range_loop, List.getElem?_eq_getElem hlt, Option.elim_some,
      List.mem_append, ihn (pos + 1) (ridx + 1) (by omega) x]
    constructor
    · rintro (h1 | ⟨i, hi, hx, r2, hr2, hm⟩)
      · by_cases him : isM records[pos] = true
        · rw [if_pos him] at h1
          have hx0 : x = ridx := by simpa using h1
          refine ⟨0, by omega, by omega, records[pos], ?_, him⟩
          rw [Nat.add_zero]
          exact List.getElem?_eq_getElem hlt
        · exact absurd h1 (by rw [if_neg him]; simp)
      · refine ⟨i + 1, by omega, by omega, r2, ?_, hm⟩
        rw [show pos + (i + 1) = pos + 1 + i by omega]
        exact hr2
    · rintro ⟨i, hi, hx, r2, hr2, hm⟩
      cases i with
      | zero =>
        left
        rw [Nat.add_zero, List.getElem?_eq_getElem hlt] at hr2
        have hr : r2 = records[pos] := (Option.some.inj hr2).symm
        rw [hr] at hm
        rw [if_pos hm]
        rw [Nat.add_zero] at hx
        simp [hx]
      | succ j =>
        right
        refine ⟨j, by omega, by omega, r2, ?_, hm⟩
        rw [show pos + 1 + j = pos + (j + 1) by omega]
        exact hr2

theorem range_getD {n s : Nat} (h : s < n) : (List.range n).getD s 0 = s := by
  have hl : s < (List.range n).length := by
    rw [List.length_range]
    exact h
  rw [List.getD_eq_getElem?_getD, List.getElem?_eq_getElem hl,
    List.getElem_range]
  rfl

/-- Characterization of the parallel scanner over gap-free offsets
(`offsets = [0, ..., records.length)`): a row id is found exactly when its
record matches. -/
theorem mem_offsets_scan (records : List (List String)) (cidx : Option Nat)
    (qp : String) (mc ww : Bool) (x : Nat) :
    x ∈ offsets_scan_matches records (List.range records.length) cidx qp
        mc ww ↔
      ∃ r, records[x]? = some r ∧
        row_is_match cidx (check_match mc ww qp) r = true := by
  rw [offsets_scan_matches, mem_sortNat, List.mem_flatten]
  simp only [List.length_range]
  constructor
  · rintro ⟨l, hl, hx⟩
    rw [List.mem_map] at hl
    obtain ⟨se, hse, rfl⟩ := hl
    rw [stepRanges, List.mem_map] at hse
    obtain ⟨i, hi, rfl⟩ := hse
    rw [List.mem_range] at hi
    have hstart : i * SEARCH_CHUNK_SIZE < records.length := by
      simp only [SEARCH_CHUNK_SIZE] at hi ⊢
      omega
    rw [search_range_with_offsets, List.length_range,
      if_neg (by omega), range_getD hstart,
      search_range_loop_mem records _ _ _ _ (by omega) x] at hx
    obtain ⟨j, hj, rfl, r, hr, hm⟩ := hx
    exact ⟨r, hr, hm⟩
  · rintro ⟨r, hr, hm⟩
    have hxlt : x < records.length := by
      by_contra hcon
      rw [List.getElem?_eq_none (by omega)] at hr
      cases hr
    refine ⟨_, List.mem_map.mpr
      ⟨(x / SEARCH_CHUNK_SIZE * SEARCH_CHUNK_SIZE,
        min (x / SEARCH_CHUNK_SIZE * SEARCH_CHUNK_SIZE + SEARCH_CHUNK_SIZE)
          records.length), ?_, rfl⟩, ?_⟩
    · rw [stepRanges, List.mem_map]
      refine ⟨x / SEARCH_CHUNK_SIZE, List.mem_range.mpr ?_, rfl⟩
      simp only [SEARCH_CHUNK_SIZE]
      omega
    · have hstart : x / SEARCH_CHUNK_SIZE * SEARCH_CHUNK_SIZE <
          records.length := by
        simp only [SEARCH_CHUNK_SIZE]
        omega
      rw [search_range_with_offsets, List.length_range,
        if_neg (by omega), range_getD hstart,
        search_range_loop_mem records _ _ _ _ (by omega) x]
      refine ⟨x - x / SEARCH_CHUNK_SIZE * SEARCH_CHUNK_SIZE, ?_, ?_, r,
        ?_, hm⟩
      · simp only [SEARCH_CHUNK_SIZE] at hxlt ⊢
        omega
      · simp only [SEARCH_CHUNK_SIZE]
        omega
      · rw [show x / SEARCH_CHUNK_SIZE * SEARCH_CHUNK_SIZE +
            (x - x / SEARCH_CHUNK_SIZE * SEARCH_CHUNK_SIZE) = x by
          simp only [SEARCH_CHUNK_SIZE]
          omega]
        exact hr

theorem mem_toList_iff {α : Type} {a : α} {o : Option α} :
    a ∈ o.toList ↔ o = some a := by
  cases o <;> simp [eq_comm]

theorem cellAt_lt {records : List (List String)} {x c : Nat}
    {cell : String} (h : cellAt records x c = some cell) :
    x < records.length := by
  rw [cellAt] at h
  by_contra hcon
  rw [List.getElem?_eq_none (by omega)] at h
  simp at h

theorem index_query_key_of_le {q : String}
    (h : utf8Len q ≤ INDEX_VALUE_MAX_LEN) : index_query_key q = q := by
  rw [index_query_key, if_neg (by omega)]

theorem indexKey_of_le {cell : String}
    (h : utf8Len cell ≤ INDEX_VALUE_MAX_LEN) :
    indexKey cell = strToLower cell := by
  rw [indexKey, if_neg (by omega)]

theorem row_is_match_some {c : Nat} {cm : String → Bool}
    {r : List String} :
    row_is_match (some c) cm r = true ↔
      ∃ cell, r[c]? = some cell ∧ cm cell = true := by
  rw [row_is_match]
  cases hc : r[c]? with
  | none => simp
  | some cell => simp [hc]

/-- The scanner's per-row match, rephrased through `cellAt` for a specific
column. -/
theorem exists_match_iff_cell {records : List (List String)} {x c : Nat}
    {cm : String → Bool} :
    (∃ r, records[x]? = some r ∧ row_is_match (some c) cm r = true) ↔
      ∃ cell, cellAt records x c = some cell ∧ cm cell = true := by
  constructor
  · rintro ⟨r, hr, hm⟩
    obtain ⟨cell, hcell, hcm⟩ := row_is_match_some.mp hm
    refine ⟨cell, ?_, hcm⟩
    rw [cellAt, hr]
    simpa using hcell
  · rintro ⟨cell, hcell, hcm⟩
    rw [cellAt] at hcell
    cases hr : records[x]? with
    | none =>
      rw [hr] at hcell
      simp at hcell
    | some r =>
      rw [hr] at hcell
      simp only [Option.some_bind] at hcell
      exact ⟨r, rfl, row_is_match_some.mpr ⟨cell, hcell, hcm⟩⟩

/-- C5 (amended): whenever the column's index faithfully maps each stored
key to exactly the rows whose cell has that index key, and no 256-byte
truncation is in play (every cell of the column and the processed query
fit in `INDEX_VALUE_MAX_LEN` bytes), the index-based search — whole-word
lookup or contains scan over the keys — returns exactly the row-id set the
parallel scanner returns for the same column, query and flags.  As stated
in the spec the property fails: an over-long cell is indexed under its
truncated key (`index_search_truncation_counterexample`). -/
theorem index_search_matches_scanner
    (records : List (List String))
    (cols : List (Option (List (String × List Nat))))
    (ro : Option (List Nat)) (settings : ParseSettings) (c : Nat)
    (m : List (String × List Nat)) (query : String) (ww : Bool) (x : Nat)
    (hcol : cols[c]? = some (some m))
    (hidx1 : ∀ p ∈ m, ∀ y ∈ p.2,
      ∃ cell ∈ (cellAt records y c).toList, indexKey cell = p.1)
    (hidx2 : ∀ y ∈ List.range records.length,
      ∀ cell ∈ (cellAt records y c).toList,
        y ∈ (lookupAssoc m (indexKey cell)).getD [])
    (hcell : ∀ y ∈ List.range records.length,
      ∀ cell ∈ (cellAt records y c).toList,
        utf8Len cell ≤ INDEX_VALUE_MAX_LEN)
    (hq : utf8Len (process_query false query) ≤ INDEX_VALUE_MAX_LEN) :
    x ∈ search_csv ⟨⟨true, cols⟩, ro, records, settings⟩ (some c) query
        false ww ↔
      x ∈ offsets_scan_matches records (List.range records.length) (some c)
        (process_query false query) false ww := by
  rw [mem_offsets_scan, exists_match_iff_cell]
  cases ww with
  | false =>
    have hL : search_csv ⟨⟨true, cols⟩, ro, records, settings⟩ (some c)
        query false false =
        index_contains_matches m
          (index_query_key (process_query false query)) := by
      simp only [search_csv, hcol]
      rfl
    rw [hL, index_query_key_of_le hq, mem_index_contains]
    constructor
    · rintro ⟨p, hp, hcont, hx⟩
      obtain ⟨cell, hcm, hkey⟩ := hidx1 p hp x hx
      have hc2 : cellAt records x c = some cell := mem_toList_iff.mp hcm
      have hxlt : x < records.length := cellAt_lt hc2
      have hsz := hcell x (List.mem_range.mpr hxlt) cell hcm
      refine ⟨cell, hc2, ?_⟩
      show containsStr (strToLower cell) (process_query false query) = true
      rw [← indexKey_of_le hsz, hkey]
      exact hcont
    · rintro ⟨cell, hc2, hcm2⟩
      have hxlt : x < records.length := cellAt_lt hc2
      have hmem := hidx2 x (List.mem_range.mpr hxlt) cell
        (mem_toList_iff.mpr hc2)
      have hsz := hcell x (List.mem_range.mpr hxlt) cell
        (mem_toList_iff.mpr hc2)
      cases hlk : lookupAssoc m (indexKey cell) with
      | none =>
        rw [hlk] at hmem
        simp at hmem
      | some rows =>
        rw [hlk] at hmem
        simp only [Option.getD_some] at hmem
        refine ⟨(indexKey cell, rows), lookupAssoc_some_mem hlk, ?_, hmem⟩
        show containsStr (indexKey cell) (process_query false query) = true
        rw [indexKey_of_le hsz]
        exact hcm2
  | true =>
    cases hlk : lookupAssoc m (process_query false query) with
    | some rows =>
      have hL : search_csv ⟨⟨true, cols⟩, ro, records, settings⟩ (some c)
          query false true = sortNat rows := by
        simp only [search_csv, hcol, index_query_key_of_le hq, hlk]
        rfl
      rw [hL, mem_sortNat]
      constructor
      · intro hx
        have hpair : (process_query false query, rows) ∈ m :=
          lookupAssoc_some_mem hlk
        obtain ⟨cell, hcm, hkey⟩ := hidx1 _ hpair x hx
        have hc2 : cellAt records x c = some cell := mem_toList_iff.mp hcm
        have hxlt : x < records.length := cellAt_lt hc2
        have hsz := hcell x (List.mem_range.mpr hxlt) cell hcm
        refine ⟨cell, hc2, ?_⟩
        show decide (strToLower cell = process_query false query) = true
        rw [← indexKey_of_le hsz]
        exact decide_eq_true hkey
      · rintro ⟨cell, hc2, hcm2⟩
        have hxlt : x < records.length := cellAt_lt hc2
        have hmem := hidx2 x (List.mem_range.mpr hxlt) cell
          (mem_toList_iff.mpr hc2)
        have hsz := hcell x (List.mem_range.mpr hxlt) cell
          (mem_toList_iff.mpr hc2)
        have hlower : strToLower cell = process_query false query :=
          of_decide_eq_true hcm2
        rw [indexKey_of_le hsz, hlower, hlk] at hmem
        simpa using hmem
    | none =>
      have hL : search_csv ⟨⟨true, cols⟩, ro, records, settings⟩ (some c)
          query false true = ([] : List Nat) := by
        simp only [search_csv, hcol, index_query_key_of_le hq, hlk]
        rfl
      rw [hL]
      constructor
      · intro hx
        exact absurd hx (List.not_mem_nil x)
      · rintro ⟨cell, hc2, hcm2⟩
        have hxlt : x < records.length := cellAt_lt hc2
        have hmem := hidx2 x (List.mem_range.mpr hxlt) cell
          (mem_toList_iff.mpr hc2)
        have hsz := hcell x (List.mem_range.mpr hxlt) cell
          (mem_toList_iff.mpr hc2)
        have hlower : strToLower cell = process_query false query :=
          of_decide_eq_true hcm2
        rw [indexKey_of_le hsz, hlower, hlk] at hmem
        simp at hmem

/-- Witness for C5 (amended) on a small indexed file: three single-cell
rows `b`, `a`, `b`, column 0 indexed as `b ↦ [0, 2]`, `a ↦ [1]`; the
whole-word index lookup for `"b"` and the scanner agree on row 0. -/
theorem index_search_matches_scanner_witness :
    0 ∈ search_csv
        ⟨⟨true, [some [("b", [0, 2]), ("a", [1])]]⟩, some [0, 1, 2],
          [["b"], ["a"], ["b"]], default_parse_settings⟩
        (some 0) "b" false true ↔
      0 ∈ offsets_scan_matches [["b"], ["a"], ["b"]] (List.range 3)
        (some 0) (process_query false "b") false true :=
  index_search_matches_scanner [["b"], ["a"], ["b"]]
    [some [("b", [0, 2]), ("a", [1])]] (some [0, 1, 2])
    default_parse_settings 0 [("b", [0, 2]), ("a", [1])] "b" true 0
    (by decide) (by decide) (by decide) (by decide) (by decide)

end QuickRows
